import Mathlib

/-!
Verification of the `bitpiece` bitfield packing engine.

This file embeds, over `Nat` and `Int`, the bit-manipulation primitives of
`src/utils.rs` / `src/lib.rs`, the storage-width selection of `src/storage.rs`,
the per-field-kind value converters of `src/impls/{bool,b_types,sb_types,int_types}.rs`,
and the code generated by the `#[bitpiece]` macro for structs and enums
(`bitpiece_macros/src/{named_structs,enums}.rs`), and proves the spec-level
properties of the packing engine against this embedding.

Machine integers (`u64` storage values) are modelled as `Nat` with explicit
truncation `% 2 ^ 64` at the points where Rust arithmetic wraps; signed values
are modelled as `Int` with the `as` casts made explicit.  Fallible operations
(`try_from_bits`, `try_new`) return `Option`; the panicking variants
(`from_bits = try_from_bits().unwrap()`, `new = try_new().unwrap()`) are
modelled as the same `Option` computation, `none` standing for the panic.
-/

namespace Bitpiece

/-! ## Bit codec primitives (`src/utils.rs`) -/

/-- The modulus of `u64` arithmetic. -/
def U64_LIMIT : Nat := 2 ^ 64

/-- `u64::MAX`. -/
def U64_MAX : Nat := 2 ^ 64 - 1

/-- `extract_bits_mask` (`src/utils.rs`): `u64::MAX >> (64 - len)`.
Meaningful for `1 ≤ len ≤ 64` (the source debug-asserts `len <= 64`). -/
def extract_bits_mask (len : Nat) : Nat := U64_MAX >>> (64 - len)

/-- `extract_bits_shifted_mask` (`src/utils.rs`): `extract_bits_mask(len) << offset`
on `u64` (the truncation is a no-op whenever `offset + len ≤ 64`). -/
def extract_bits_shifted_mask (offset len : Nat) : Nat :=
  (extract_bits_mask len <<< offset) % U64_LIMIT

/-- `extract_bits` (`src/utils.rs`): `(value >> offset) & mask(len)`. -/
def extract_bits (value offset len : Nat) : Nat :=
  (value >>> offset) &&& extract_bits_mask len

/-- `extract_bits_noshift` (`src/utils.rs`): `value & (mask(len) << offset)`. -/
def extract_bits_noshift (value offset len : Nat) : Nat :=
  value &&& extract_bits_shifted_mask offset len

/-- `modify_bits` (`src/utils.rs`, identical in `src/lib.rs`): clears the target
bit range and ORs in the shifted new value.  Note that the source does **not**
mask `new_value` to `len` bits before shifting. -/
def modify_bits (value offset len new_value : Nat) : Nat :=
  let shifted_mask := extract_bits_shifted_mask offset len
  let without_original_bits := value &&& (U64_MAX ^^^ shifted_mask)
  let shifted_new_value := (new_value <<< offset) % U64_LIMIT
  without_original_bits ||| shifted_new_value

/-- `const_array_max_u64` (`src/utils.rs`): running maximum over the array;
the source `unwrap`s at the end, so the empty array (where it panics) is `none`. -/
def const_array_max_u64 (array : List Nat) : Option Nat :=
  array.foldl
    (fun maybe_max cur =>
      match maybe_max with
      | some m => if cur > m then some cur else some m
      | none => some cur)
    none

/-! ## Storage width selection (`src/storage.rs`) -/

/-- Rust's `usize::next_power_of_two`, by structural recursion on a fuel that
is always sufficient (`n` halving steps). -/
def next_power_of_two_go : Nat → Nat → Nat
  | 0, _ => 1
  | fuel + 1, n => if n ≤ 1 then 1 else 2 * next_power_of_two_go fuel ((n + 1) / 2)

/-- Rust's `usize::next_power_of_two`: the smallest power of two `≥ n` (and `1` for `n = 0`). -/
def next_power_of_two (n : Nat) : Nat := next_power_of_two_go n n

/-- `exact_associated_storage_bit_length` (`src/storage.rs`): the bit width of the
smallest storage type for `bit_length` bits, i.e. `next_power_of_two` clamped below
by `8`.  (The source panics on `bit_length == 0`; all uses here have `1 ≤ bit_length`.) -/
def exact_associated_storage_bit_length (bit_length : Nat) : Nat :=
  let power_of_2 := next_power_of_two bit_length
  if power_of_2 < 8 then 8 else power_of_2

/-- The storage bit width backing a field of `w` bits (`AssociatedStorage`). -/
def storage_bits (w : Nat) : Nat := exact_associated_storage_bit_length w

/-! ## Integer casts -/

/-- Rust's `as` cast of an `s`-bit unsigned value to the `s`-bit signed type
(two's complement reinterpretation). -/
def to_signed (s n : Nat) : Int :=
  if n % 2 ^ s < 2 ^ (s - 1) then ((n % 2 ^ s : Nat) : Int)
  else ((n % 2 ^ s : Nat) : Int) - 2 ^ s

/-- Rust's `as` cast of an `s`-bit signed value to the `s`-bit unsigned type. -/
def to_unsigned (s : Nat) (v : Int) : Nat := (v % ((2 ^ s : Nat) : Int)).toNat

/-- `wrapping_neg` on an `s`-bit unsigned value. -/
def wrapping_neg (s x : Nat) : Nat := (2 ^ s - x % 2 ^ s) % 2 ^ s

/-! ## `bool` converter (`src/impls/bool.rs`) -/

/-- `BitPieceBoolConverter::to_bits`. -/
def bool_to_bits (x : Bool) : Nat := if x then 1 else 0

/-- `BitPieceBoolConverter::from_bits`: `bits != 0`. -/
def bool_from_bits (bits : Nat) : Bool := bits != 0

/-- `BitPieceBoolConverter::try_from_bits`: `Some(bits != 0)`. -/
def bool_try_from_bits (bits : Nat) : Option Bool := some (bits != 0)

/-! ## `B` types (`src/impls/b_types.rs`), width `w`, storage `storage_bits w` -/

/-- `B{w}::ONES`: all-ones value of the type (`(1 << w) - 1`, or the storage
maximum when `w` equals the storage width). -/
def b_ones (w : Nat) : Nat :=
  if w = storage_bits w then 2 ^ storage_bits w - 1 else (1 <<< w) - 1

/-- `B{w}::try_new`: range check against `ONES`. -/
def b_try_new (w value : Nat) : Option Nat :=
  if value ≤ b_ones w then some value else none

/-- `B{w}::try_from_bits = try_new`. -/
def b_try_from_bits (w bits : Nat) : Option Nat := b_try_new w bits

/-- `B{w}::from_bits = new = try_new().unwrap()`; `none` models the panic. -/
def b_from_bits (w bits : Nat) : Option Nat := b_try_new w bits

/-- `B{w}::to_bits`: the inner value. -/
def b_to_bits (x : Nat) : Nat := x

/-! ## `SB` types (`src/impls/sb_types.rs`), width `w`, storage `storage_bits w` -/

/-- `SB{w}::STORAGE_MASK`: mask of the bit length of the type. -/
def sb_storage_mask (w : Nat) : Nat :=
  if w = storage_bits w then 2 ^ storage_bits w - 1 else (1 <<< w) - 1

/-- `SB{w}::MIN`: `((1 as storage) << (w - 1)).wrapping_neg() as signed`. -/
def sb_min_val (w : Nat) : Int :=
  to_signed (storage_bits w) (wrapping_neg (storage_bits w) ((1 <<< (w - 1)) % 2 ^ storage_bits w))

/-- `SB{w}::MAX`: `((1 as storage) << (w - 1)).wrapping_sub(1) as signed`. -/
def sb_max_val (w : Nat) : Int :=
  to_signed (storage_bits w) (((1 <<< (w - 1)) - 1) % 2 ^ storage_bits w)

/-- `SB{w}::try_new`: range check against `MIN` and `MAX`. -/
def sb_try_new (w : Nat) (value : Int) : Option Int :=
  if value ≤ sb_max_val w ∧ sb_min_val w ≤ value then some value else none

/-- `SB{w}::try_from_bits`: extract the sign bit at position `w - 1`,
sign-extend by ORing `!STORAGE_MASK` when it is set, reinterpret as signed,
and range-check via `try_new`. -/
def sb_try_from_bits (w bits : Nat) : Option Int :=
  let s := storage_bits w
  let sign_bit := (bits >>> (w - 1)) &&& 1
  let sign_extended :=
    if sign_bit != 0 then bits ||| ((2 ^ s - 1) ^^^ sb_storage_mask w) else bits
  sb_try_new w (to_signed s sign_extended)

/-- `SB{w}::from_bits = try_from_bits().unwrap()`; `none` models the panic. -/
def sb_from_bits (w bits : Nat) : Option Int := sb_try_from_bits w bits

/-- `SB{w}::to_bits`: `(self.0 as storage) & STORAGE_MASK`. -/
def sb_to_bits (w : Nat) (x : Int) : Nat :=
  to_unsigned (storage_bits w) x &&& sb_storage_mask w

/-! ## Native integer types (`src/impls/int_types.rs`), width `w ∈ {8,16,32,64}` -/

/-- `BitPieceU{w}Converter::try_from_bits`: identity, always succeeds. -/
def uint_try_from_bits (bits : Nat) : Option Nat := some bits

/-- `BitPieceU{w}Converter::to_bits`: identity. -/
def uint_to_bits (x : Nat) : Nat := x

/-- `BitPieceI{w}Converter::from_bits`: `bits as i{w}`. -/
def int_from_bits (w bits : Nat) : Int := to_signed w bits

/-- `BitPieceI{w}Converter::try_from_bits`: `Some(bits as i{w})`, always succeeds. -/
def int_try_from_bits (w bits : Nat) : Option Int := some (to_signed w bits)

/-- `BitPieceI{w}Converter::to_bits`: `x as u{w}`. -/
def int_to_bits (w : Nat) (x : Int) : Nat := to_unsigned w x

/-! ## Generated enum code (`bitpiece_macros/src/enums.rs`)

An enum is described by the list of its variants' declared discriminant values
(in declaration order, distinct by the Rust language rules); a variant is
identified by its index into that list. -/

/-- The `match` generated by `gen_try_from_bits_code`: compare `bits` against
each variant's declared value in declaration order, returning the matching
variant (as its index), or `None`. -/
def enum_try_from_bits : List Nat → Nat → Option Nat
  | [], _ => none
  | v :: rest, bits =>
    if bits = v then some 0 else (enum_try_from_bits rest bits).map (· + 1)

/-- Generated enum `from_bits = try_from_bits().unwrap()`; `none` models the panic. -/
def enum_from_bits (variant_values : List Nat) (bits : Nat) : Option Nat :=
  enum_try_from_bits variant_values bits

/-- Generated enum `to_bits`: `self as storage`, i.e. the declared discriminant
value of the variant. -/
def enum_to_bits (variant_values : List Nat) (idx : Nat) : Nat :=
  variant_values.getD idx 0

/-- `64 - v.leading_zeros()` for a `u64` `v` (the per-variant quantity computed by
`enum_bit_len`), by structural recursion on a fuel that is always sufficient. -/
def bits_required_go : Nat → Nat → Nat
  | 0, _ => 0
  | fuel + 1, v => if v = 0 then 0 else bits_required_go fuel (v / 2) + 1

/-- `64 - v.leading_zeros()`: the number of significant binary digits of `v`. -/
def bits_required (v : Nat) : Nat := bits_required_go v v

/-- `enum_bit_len` (`bitpiece_macros/src/enums.rs`): the maximum over all variants
of `64 - value.leading_zeros()`; `none` for the impossible empty variant list. -/
def enum_bit_len (variant_values : List Nat) : Option Nat :=
  const_array_max_u64 (variant_values.map bits_required)

/-! ## Schemas and generated struct code (`bitpiece_macros/src/named_structs.rs`)

A field type is one of the supported field kinds; a struct bitpiece is
described by the ordered list of its field types.  `bTy w` stands for `B{w}`,
`sbTy w` for `SB{w}`, `uintTy w` for `u{w}`, `intTy w` for `i{w}`;
`enumTy values bl` is a generated enum with declared discriminant list
`values` and bit length `bl` (explicit or inferred); `structTy fs` is a nested
generated struct. -/

inductive FieldTy : Type where
  | boolTy : FieldTy
  | bTy : Nat → FieldTy
  | sbTy : Nat → FieldTy
  | uintTy : Nat → FieldTy
  | intTy : Nat → FieldTy
  | enumTy : List Nat → Nat → FieldTy
  | structTy : List FieldTy → FieldTy

mutual

/-- `<T as BitPiece>::BITS` for each field kind; for a generated struct it is
the sum of the field bit lengths (`calc_bit_len`). -/
def bit_len_f : FieldTy → Nat
  | .boolTy => 1
  | .bTy w => w
  | .sbTy w => w
  | .uintTy w => w
  | .intTy w => w
  | .enumTy _ bl => bl
  | .structTy fs => bit_len_fs fs

/-- Sum of the bit lengths of a field list (`calc_bit_len`). -/
def bit_len_fs : List FieldTy → Nat
  | [] => 0
  | f :: rest => bit_len_f f + bit_len_fs rest

end

/-- The per-field bit offsets generated by `gen_fields_offsets_and_lens_consts`:
the first field is at `start`, each subsequent field at the previous offset plus
the previous length. -/
def field_offsets_from (start : Nat) : List FieldTy → List Nat
  | [] => []
  | f :: rest => start :: field_offsets_from (start + bit_len_f f) rest

/-- The field offsets of a generated struct (first field at offset `0`). -/
def field_offsets (fs : List FieldTy) : List Nat := field_offsets_from 0 fs

mutual

/-- Whether `<T as BitPiece>::try_from_bits(bits)` succeeds, per field kind.
For a generated struct this is the conjunction, over the fields, of validity of
the extracted field bits (`gen_try_from_bits_code`). -/
def field_valid : FieldTy → Nat → Bool
  | .boolTy, bits => (bool_try_from_bits bits).isSome
  | .bTy w, bits => (b_try_from_bits w bits).isSome
  | .sbTy w, bits => (sb_try_from_bits w bits).isSome
  | .uintTy _, bits => (uint_try_from_bits bits).isSome
  | .intTy w, bits => (int_try_from_bits w bits).isSome
  | .enumTy values _, bits => (enum_try_from_bits values bits).isSome
  | .structTy fs, bits => struct_fields_valid fs 0 bits

/-- The field-by-field validation of `gen_try_from_bits_code`, with `off` the
bit offset of the first remaining field. -/
def struct_fields_valid : List FieldTy → Nat → Nat → Bool
  | [], _, _ => true
  | f :: rest, off, bits =>
    field_valid f (extract_bits bits off (bit_len_f f)) &&
      struct_fields_valid rest (off + bit_len_f f) bits

end

/-- The generated struct `try_from_bits` (`gen_try_from_bits_code`): validate
every field's extracted bits; on success the piece stores the input `bits`
verbatim (`let result = Self { storage: bits }`). -/
def struct_try_from_bits (fs : List FieldTy) (bits : Nat) : Option Nat :=
  if struct_fields_valid fs 0 bits then some bits else none

/-- The generated struct `from_bits = try_from_bits().unwrap()`
(`bitpiece_gen_impl`); `none` models the panic. -/
def struct_from_bits (fs : List FieldTy) (bits : Nat) : Option Nat :=
  struct_try_from_bits fs bits

/-- The generated struct `to_bits`: `self.storage`. -/
def struct_to_bits (storage : Nat) : Nat := storage

/-- The generated field setter (`gen_field_set_fns`):
`self.storage = modify_bits(self.storage, OFFSET, LEN, to_bits(new_value))`. -/
def struct_set_field (storage off len new_raw : Nat) : Nat :=
  modify_bits storage off len new_raw

/-- The generated `from_fields` (`gen_from_fields`): starting from the zeroed
piece, apply each field's setter in declaration order; `raws` are the `to_bits`
images of the given field values and `z` is the starting storage. -/
def struct_pack_from (z off : Nat) : List FieldTy → List Nat → Nat
  | [], _ => z
  | _ :: _, [] => z
  | f :: fs, r :: rs =>
    struct_pack_from (struct_set_field z off (bit_len_f f) r) (off + bit_len_f f) fs rs

/-- `from_fields` storage for a struct whose zeroed storage is `0`. -/
def struct_from_fields (fs : List FieldTy) (raws : List Nat) : Nat :=
  struct_pack_from 0 0 fs raws

/-! ## Mutable windows (`src/mut_ref.rs`)

The root storage is modelled as a `u64` value (`BitPieceStorageMutRef::get`
zero-extends every storage width to `u64`). -/

/-- `BitsMut::get_bits`: extract `len` bits at `start_bit_index + rel_bit_index`. -/
def bits_mut_get_bits (storage start_bit_index rel_bit_index len : Nat) : Nat :=
  extract_bits storage (start_bit_index + rel_bit_index) len

/-- `BitsMut::set_bits`: replace the storage with
`modify_bits(storage, start_bit_index + rel_bit_index, len, new_value)`. -/
def bits_mut_set_bits (storage start_bit_index rel_bit_index len new_value : Nat) : Nat :=
  modify_bits storage (start_bit_index + rel_bit_index) len new_value

/-- A window's `set` (`bitpiece_define_mut_ref_type`): write the `to_bits`
image of the new value into the `BITS`-wide range at the window's offset. -/
def window_set (storage offset len new_raw : Nat) : Nat :=
  bits_mut_set_bits storage offset 0 len new_raw

/-! ## Schema well-formedness

A schema is well formed when it could have been produced by the macro front end:
`B`/`SB` widths lie in `1..=64`, native integer widths are the four machine
widths, an enum has at least one variant, distinct discriminants (a Rust
language rule) that fit in its (at least one bit wide, at most 64 bit wide)
bit length, and a struct has at least one field (`bitpiece_named_struct`
rejects empty structs). -/

mutual

def field_wf : FieldTy → Prop
  | .boolTy => True
  | .bTy w => 1 ≤ w ∧ w ≤ 64
  | .sbTy w => 1 ≤ w ∧ w ≤ 64
  | .uintTy w => w = 8 ∨ w = 16 ∨ w = 32 ∨ w = 64
  | .intTy w => w = 8 ∨ w = 16 ∨ w = 32 ∨ w = 64
  | .enumTy values bl => values ≠ [] ∧ values.Nodup ∧ 1 ≤ bl ∧ bl ≤ 64 ∧
      ∀ v ∈ values, v < 2 ^ bl
  | .structTy fs => fs ≠ [] ∧ fields_wf fs

def fields_wf : List FieldTy → Prop
  | [] => True
  | f :: rest => field_wf f ∧ fields_wf rest

end

/-- The raw field values fit their declared bit lengths (this holds for the
`to_bits` image of every value of each field type, except for nested struct
pieces whose storage carries stray bits above the nested bit length). -/
def raws_fit : List FieldTy → List Nat → Prop
  | [], [] => True
  | f :: fs, r :: rs => r < 2 ^ bit_len_f f ∧ raws_fit fs rs
  | _, _ => False

/-- The raw field values are each valid for their field's type. -/
def raws_valid : List FieldTy → List Nat → Prop
  | [], [] => True
  | f :: fs, r :: rs => field_valid f r = true ∧ raws_valid fs rs
  | _, _ => False

/-- The `(offset, len)` pairs of the fields of a struct, starting at `off`. -/
def field_ranges : List FieldTy → Nat → List (Nat × Nat)
  | [], _ => []
  | f :: rest, off => (off, bit_len_f f) :: field_ranges rest (off + bit_len_f f)

mutual

/-- All leaf (non-struct) fields reachable from a field placed at cumulative
offset `off`, with their cumulative offsets: nested structs are inlined. -/
def flatten_field : FieldTy → Nat → List (Nat × FieldTy)
  | .structTy fs, off => flatten_fields fs off
  | f, off => [(off, f)]

/-- All leaf fields of a field list starting at cumulative offset `off`. -/
def flatten_fields : List FieldTy → Nat → List (Nat × FieldTy)
  | [], _ => []
  | f :: rest, off => flatten_field f off ++ flatten_fields rest (off + bit_len_f f)

end

/-! ## Basic lemmas about the bit codec -/

theorem extract_bits_mask_eq {len : Nat} (h1 : 1 ≤ len) (h2 : len ≤ 64) :
    extract_bits_mask len = 2 ^ len - 1 := by
  apply Nat.eq_of_testBit_eq
  intro i
  simp only [extract_bits_mask, U64_MAX, Nat.testBit_shiftRight,
    Nat.testBit_two_pow_sub_one]
  exact decide_eq_decide.mpr (by omega)

theorem extract_bits_mask_lt {len : Nat} (h1 : 1 ≤ len) (h2 : len ≤ 64) :
    extract_bits_mask len < 2 ^ len := by
  rw [extract_bits_mask_eq h1 h2]
  exact Nat.sub_lt (Nat.pos_pow_of_pos len (by norm_num)) one_pos

theorem extract_bits_shifted_mask_eq {offset len : Nat} (h1 : 1 ≤ len)
    (h3 : offset + len ≤ 64) :
    extract_bits_shifted_mask offset len = (2 ^ len - 1) <<< offset := by
  have hmask := extract_bits_mask_eq h1 (by omega)
  have hlt : (2 ^ len - 1) <<< offset < 2 ^ 64 := by
    calc (2 ^ len - 1) <<< offset < 2 ^ (len + offset) :=
          Nat.shiftLeft_lt (Nat.sub_lt (Nat.pos_pow_of_pos len (by norm_num)) one_pos)
      _ ≤ 2 ^ 64 := Nat.pow_le_pow_right (by norm_num) (by omega)
  rw [extract_bits_shifted_mask, hmask, U64_LIMIT, Nat.mod_eq_of_lt hlt]

theorem extract_bits_testBit {value offset len i : Nat} (h1 : 1 ≤ len) (h2 : len ≤ 64) :
    (extract_bits value offset len).testBit i =
      (value.testBit (offset + i) && decide (i < len)) := by
  simp only [extract_bits, extract_bits_mask_eq h1 h2, Nat.testBit_shiftRight,
    Nat.testBit_and, Nat.testBit_two_pow_sub_one]

theorem extract_bits_lt {value offset len : Nat} (h1 : 1 ≤ len) (h2 : len ≤ 64) :
    extract_bits value offset len < 2 ^ len :=
  Nat.and_lt_two_pow _ (extract_bits_mask_lt h1 h2)

/-- Bits inside the target range of `modify_bits` come from `new_value`. -/
theorem modify_bits_testBit_in {value offset len new_value i : Nat} (h1 : 1 ≤ len)
    (h3 : offset + len ≤ 64) (hlo : offset ≤ i) (hhi : i < offset + len) :
    (modify_bits value offset len new_value).testBit i = new_value.testBit (i - offset) := by
  have hi64 : i < 64 := by omega
  simp only [modify_bits, extract_bits_shifted_mask_eq h1 h3, U64_MAX, U64_LIMIT,
    Nat.testBit_or, Nat.testBit_and, Nat.testBit_xor, Nat.testBit_mod_two_pow,
    Nat.testBit_shiftLeft, Nat.testBit_two_pow_sub_one]
  have h4 : decide (i < 64) = true := by simp [hi64]
  have h5 : decide (i - offset < len) = true := by simp; omega
  have h6 : decide (i ≥ offset) = true := by simp [hlo]
  simp [h4, h5, h6]

/-- Bits below the target range of `modify_bits` come from `value`. -/
theorem modify_bits_testBit_below {value offset len new_value i : Nat} (h1 : 1 ≤ len)
    (h3 : offset + len ≤ 64) (hlo : i < offset) :
    (modify_bits value offset len new_value).testBit i = value.testBit i := by
  have hi64 : i < 64 := by omega
  simp only [modify_bits, extract_bits_shifted_mask_eq h1 h3, U64_MAX, U64_LIMIT,
    Nat.testBit_or, Nat.testBit_and, Nat.testBit_xor, Nat.testBit_mod_two_pow,
    Nat.testBit_shiftLeft, Nat.testBit_two_pow_sub_one]
  have h6 : decide (i ≥ offset) = false := by simp; omega
  have h4 : decide (i < 64) = true := by simp [hi64]
  simp [h4, h6]

/-- Bits above the target range of `modify_bits` (but inside the 64-bit storage)
are the OR of the original bits and the stray high bits of the unmasked
`new_value`; when `new_value` fits in `len` bits they come from `value` alone. -/
theorem modify_bits_testBit_above {value offset len new_value i : Nat} (h1 : 1 ≤ len)
    (h3 : offset + len ≤ 64) (hlo : offset + len ≤ i) (hi64 : i < 64)
    (hfit : new_value < 2 ^ len) :
    (modify_bits value offset len new_value).testBit i = value.testBit i := by
  simp only [modify_bits, extract_bits_shifted_mask_eq h1 h3, U64_MAX, U64_LIMIT,
    Nat.testBit_or, Nat.testBit_and, Nat.testBit_xor, Nat.testBit_mod_two_pow,
    Nat.testBit_shiftLeft, Nat.testBit_two_pow_sub_one]
  have h4 : decide (i < 64) = true := by simp [hi64]
  have h5 : (decide (offset ≤ i) && decide (i < offset + len)) = false := by simp; omega
  have h7 : new_value.testBit (i - offset) = false := by
    apply Nat.testBit_lt_two_pow
    calc new_value < 2 ^ len := hfit
      _ ≤ 2 ^ (i - offset) := Nat.pow_le_pow_right (by norm_num) (by omega)
  simp [h4, h7]
  omega

/-- Bits at position `≥ 64` of a `modify_bits` result are clear (it is a `u64`). -/
theorem modify_bits_lt {value offset len new_value : Nat} (h1 : 1 ≤ len)
    (h3 : offset + len ≤ 64) :
    modify_bits value offset len new_value < 2 ^ 64 := by
  apply Nat.lt_pow_two_of_testBit
  intro i hi
  simp only [modify_bits, extract_bits_shifted_mask_eq h1 h3, U64_MAX, U64_LIMIT,
    Nat.testBit_or, Nat.testBit_and, Nat.testBit_xor, Nat.testBit_mod_two_pow,
    Nat.testBit_shiftLeft, Nat.testBit_two_pow_sub_one]
  have h4 : decide (i < 64) = false := by simp; omega
  have h5 : decide (i - offset < len) = false := by simp; omega
  simp [h4, h5]

/-- Extracting the modified range recovers the new value masked to `len` bits. -/
theorem extract_bits_modify_bits {value offset len new_value : Nat} (h1 : 1 ≤ len)
    (h3 : offset + len ≤ 64) :
    extract_bits (modify_bits value offset len new_value) offset len =
      new_value &&& (2 ^ len - 1) := by
  apply Nat.eq_of_testBit_eq
  intro i
  rw [extract_bits_testBit h1 (by omega)]
  by_cases hi : i < len
  · rw [modify_bits_testBit_in h1 h3 (by omega) (by omega)]
    simp [hi, Nat.add_sub_cancel_left]
  · have : (new_value &&& (2 ^ len - 1)).testBit i = false := by
      apply Nat.testBit_lt_two_pow
      calc new_value &&& (2 ^ len - 1) < 2 ^ len :=
            Nat.and_lt_two_pow _ (by
              exact Nat.sub_lt (Nat.pos_pow_of_pos len (by norm_num)) one_pos)
        _ ≤ 2 ^ i := Nat.pow_le_pow_right (by norm_num) (by omega)
    simp [hi, this]

/-- Extracting a range disjoint from the modified one is unaffected, provided the
written value fits in its `len` bits. -/
theorem extract_bits_modify_bits_disjoint {value o1 l1 o2 l2 new_value : Nat}
    (h1 : 1 ≤ l1) (h3 : o1 + l1 ≤ 64) (h1' : 1 ≤ l2) (h3' : o2 + l2 ≤ 64)
    (hdisj : o1 + l1 ≤ o2 ∨ o2 + l2 ≤ o1) (hfit : new_value < 2 ^ l1) :
    extract_bits (modify_bits value o1 l1 new_value) o2 l2 =
      extract_bits value o2 l2 := by
  apply Nat.eq_of_testBit_eq
  intro i
  rw [extract_bits_testBit h1' (by omega), extract_bits_testBit h1' (by omega)]
  by_cases hi : i < l2
  · rcases hdisj with hd | hd
    · rw [modify_bits_testBit_above h1 h3 (by omega) (by omega) hfit]
    · rw [modify_bits_testBit_below h1 h3 (by omega)]
  · simp [hi]

/-! ## Storage width and cast lemmas -/

theorem storage_bits_spec : ∀ w < 65, 1 ≤ w →
    (storage_bits w = 8 ∨ storage_bits w = 16 ∨ storage_bits w = 32 ∨
        storage_bits w = 64) ∧
      w ≤ storage_bits w ∧ storage_bits w ≤ 64 := by decide

theorem storage_bits_ge {w : Nat} (h1 : 1 ≤ w) (h2 : w ≤ 64) : w ≤ storage_bits w :=
  (storage_bits_spec w (by omega) h1).2.1

theorem storage_bits_le {w : Nat} (h1 : 1 ≤ w) (h2 : w ≤ 64) : storage_bits w ≤ 64 :=
  (storage_bits_spec w (by omega) h1).2.2

theorem to_signed_of_lt {s n : Nat} (h : n < 2 ^ (s - 1)) : to_signed s n = n := by
  have hn : n < 2 ^ s := lt_of_lt_of_le h (Nat.pow_le_pow_right (by norm_num) (by omega))
  rw [to_signed, Nat.mod_eq_of_lt hn, if_pos h]

theorem to_signed_of_ge {s n : Nat} (h1 : 2 ^ (s - 1) ≤ n) (h2 : n < 2 ^ s) :
    to_signed s n = (n : Int) - 2 ^ s := by
  rw [to_signed, Nat.mod_eq_of_lt h2, if_neg (by omega)]

theorem to_unsigned_of_nonneg {s : Nat} {v : Int} (h1 : 0 ≤ v) (h2 : v < (2 ^ s : Nat)) :
    to_unsigned s v = v.toNat := by
  rw [to_unsigned, Int.emod_eq_of_lt h1 h2]

theorem to_unsigned_of_neg {s : Nat} {v : Int} (h1 : -((2 ^ s : Nat) : Int) ≤ v)
    (h2 : v < 0) : to_unsigned s v = (v + (2 ^ s : Nat)).toNat := by
  have h3 : (v + ((2 ^ s : Nat) : Int)) % ((2 ^ s : Nat) : Int) =
      v % ((2 ^ s : Nat) : Int) := by
    have h4 := Int.add_mul_emod_self_left (a := v) (b := ((2 ^ s : Nat) : Int)) (c := 1)
    rw [mul_one] at h4
    exact h4
  rw [to_unsigned, ← h3, Int.emod_eq_of_lt (by omega) (by omega)]

theorem shiftLeft_one_eq (k : Nat) : 1 <<< k = 2 ^ k := by
  rw [Nat.shiftLeft_eq, one_mul]

theorem b_ones_eq (w : Nat) : b_ones w = 2 ^ w - 1 := by
  rw [b_ones]
  split
  · next heq => rw [← heq]
  · rw [shiftLeft_one_eq]

theorem sb_storage_mask_eq (w : Nat) : sb_storage_mask w = 2 ^ w - 1 := by
  rw [sb_storage_mask]
  split
  · next heq => rw [← heq]
  · rw [shiftLeft_one_eq]

theorem sb_min_val_eq {w : Nat} (h1 : 1 ≤ w) (h2 : w ≤ 64) :
    sb_min_val w = -((2 ^ (w - 1) : Nat) : Int) := by
  rw [sb_min_val, shiftLeft_one_eq]
  set s := storage_bits w with hs
  have hws : w ≤ s := storage_bits_ge h1 h2
  have hs64 : s ≤ 64 := storage_bits_le h1 h2
  have hwlt : 2 ^ (w - 1) < 2 ^ s := Nat.pow_lt_pow_right (by norm_num) (by omega)
  have hwle : 2 ^ (w - 1) ≤ 2 ^ (s - 1) := Nat.pow_le_pow_right (by norm_num) (by omega)
  have hsplit : 2 ^ s = 2 ^ (s - 1) + 2 ^ (s - 1) := by
    conv_lhs => rw [show s = s - 1 + 1 by omega]
    rw [pow_succ]
    omega
  have hpos : 1 ≤ 2 ^ (w - 1) := Nat.one_le_two_pow
  rw [Nat.mod_eq_of_lt hwlt, wrapping_neg, Nat.mod_eq_of_lt hwlt,
    Nat.mod_eq_of_lt (by omega), to_signed_of_ge (by omega) (by omega)]
  push_cast [Nat.cast_sub (le_of_lt hwlt)]
  ring

theorem sb_max_val_eq {w : Nat} (h1 : 1 ≤ w) (h2 : w ≤ 64) :
    sb_max_val w = ((2 ^ (w - 1) : Nat) : Int) - 1 := by
  rw [sb_max_val, shiftLeft_one_eq]
  set s := storage_bits w with hs
  have hws : w ≤ s := storage_bits_ge h1 h2
  have hs64 : s ≤ 64 := storage_bits_le h1 h2
  have hwle : 2 ^ (w - 1) ≤ 2 ^ (s - 1) := Nat.pow_le_pow_right (by norm_num) (by omega)
  have hpos : 1 ≤ 2 ^ (w - 1) := Nat.one_le_two_pow
  have hlt : 2 ^ (w - 1) - 1 < 2 ^ (s - 1) := by omega
  rw [Nat.mod_eq_of_lt (lt_of_lt_of_le hlt (Nat.pow_le_pow_right (by norm_num) (by omega))),
    to_signed_of_lt hlt]
  push_cast [Nat.cast_sub hpos]
  ring

/-! ## SB decode / encode lemmas -/

/-- The complement of the storage mask, `!STORAGE_MASK`, is the block of high
bits `[w, s)`. -/
theorem sb_not_storage_mask_eq {w : Nat} (h1 : 1 ≤ w) (h2 : w ≤ 64) :
    (2 ^ storage_bits w - 1) ^^^ sb_storage_mask w =
      (2 ^ (storage_bits w - w) - 1) <<< w := by
  have hws : w ≤ storage_bits w := storage_bits_ge h1 h2
  rw [sb_storage_mask_eq]
  apply Nat.eq_of_testBit_eq
  intro i
  simp only [Nat.testBit_xor, Nat.testBit_two_pow_sub_one, Nat.testBit_shiftLeft]
  rcases Nat.lt_or_ge i w with hiw | hiw
  · have his : i < storage_bits w := lt_of_lt_of_le hiw hws
    simp [hiw, his, show ¬ w ≤ i by omega]
  · rcases Nat.lt_or_ge i (storage_bits w) with his | his
    · simp [his, show ¬ i < w by omega, show w ≤ i from hiw,
        show i - w < storage_bits w - w by omega]
    · simp [show ¬ i < storage_bits w by omega, show ¬ i < w by omega,
        show ¬ i - w < storage_bits w - w by omega]

/-- Decoding behaviour of `SB{w}::try_from_bits` on any raw pattern that fits in
`w` bits: the value is the two's-complement reading of the low `w` bits. -/
theorem sb_decode {w r : Nat} (h1 : 1 ≤ w) (h2 : w ≤ 64) (hr : r < 2 ^ w) :
    sb_try_from_bits w r =
      some (if 2 ^ (w - 1) ≤ r then (r : Int) - ((2 ^ w : Nat) : Int) else (r : Int)) := by
  have hws : w ≤ storage_bits w := storage_bits_ge h1 h2
  have hs64 : storage_bits w ≤ 64 := storage_bits_le h1 h2
  have hpow : 2 ^ w = 2 ^ (w - 1) + 2 ^ (w - 1) := by
    conv_lhs => rw [show w = w - 1 + 1 by omega]
    rw [pow_succ]
    omega
  have hsw : (2 ^ (w - 1) : Nat) ≤ 2 ^ (storage_bits w - 1) :=
    Nat.pow_le_pow_right (by norm_num) (by omega)
  have hssplit : 2 ^ storage_bits w = 2 ^ (storage_bits w - 1) + 2 ^ (storage_bits w - 1) := by
    conv_lhs => rw [show storage_bits w = storage_bits w - 1 + 1 by omega]
    rw [pow_succ]
    omega
  have h2w : (2 ^ w : Nat) ≤ 2 ^ storage_bits w := Nat.pow_le_pow_right (by norm_num) hws
  have hmax := sb_max_val_eq h1 h2
  have hmin := sb_min_val_eq h1 h2
  have hstep : sb_try_from_bits w r = sb_try_new w (to_signed (storage_bits w)
      (if ((r >>> (w - 1)) &&& 1) != 0 then
        r ||| ((2 ^ storage_bits w - 1) ^^^ sb_storage_mask w) else r)) := rfl
  rw [hstep]
  by_cases hcase : 2 ^ (w - 1) ≤ r
  · have hsign : (r >>> (w - 1)) &&& 1 = 1 := by
      rw [Nat.shiftRight_eq_div_pow]
      have : r / 2 ^ (w - 1) = 1 := by
        apply Nat.div_eq_of_lt_le
        · simpa using hcase
        · omega
      simp [this]
    rw [hsign]
    have hext : r ||| ((2 ^ storage_bits w - 1) ^^^ sb_storage_mask w) =
        2 ^ storage_bits w - 2 ^ w + r := by
      rw [sb_not_storage_mask_eq h1 h2, Nat.shiftLeft_eq, Nat.or_comm, Nat.mul_comm,
        ← Nat.mul_add_lt_is_or hr, Nat.mul_sub_left_distrib, mul_one, ← pow_add,
        Nat.add_sub_cancel' hws]
    have hhi : 2 ^ (storage_bits w - 1) ≤ 2 ^ storage_bits w - 2 ^ w + r := by omega
    have hlt : 2 ^ storage_bits w - 2 ^ w + r < 2 ^ storage_bits w := by omega
    rw [if_pos (show ((1 : Nat) != 0) = true from rfl), hext,
      to_signed_of_ge hhi hlt, if_pos hcase, sb_try_new, if_pos]
    · congr 1
      push_cast [Nat.cast_sub h2w]
      ring
    · have hcr : ((2 : Int)) ^ (w - 1) ≤ (r : Int) := by exact_mod_cast hcase
      have hcr2 : (r : Int) < 2 ^ w := by exact_mod_cast hr
      have hc1 : ((2 : Int)) ^ w = 2 ^ (w - 1) + 2 ^ (w - 1) := by exact_mod_cast hpow
      have hc3 : (0 : Int) < 2 ^ (w - 1) := by positivity
      constructor
      · rw [hmax]
        push_cast [Nat.cast_sub h2w]
        linarith
      · rw [hmin]
        push_cast [Nat.cast_sub h2w]
        linarith
  · have hsign : (r >>> (w - 1)) &&& 1 = 0 := by
      rw [Nat.shiftRight_eq_div_pow]
      have : r / 2 ^ (w - 1) = 0 := Nat.div_eq_of_lt (by omega)
      simp [this]
    rw [hsign]
    have hrlt : r < 2 ^ (storage_bits w - 1) := by omega
    rw [if_neg (show ¬ ((0 : Nat) != 0) = true from by decide),
      to_signed_of_lt hrlt, if_neg hcase, sb_try_new, if_pos]
    have hcr : (r : Int) < 2 ^ (w - 1) := by exact_mod_cast (show r < 2 ^ (w - 1) by omega)
    have hcr0 : (0 : Int) ≤ (r : Int) := Int.natCast_nonneg r
    have hc3 : (0 : Int) < 2 ^ (w - 1) := by positivity
    constructor
    · rw [hmax]
      push_cast
      linarith
    · rw [hmin]
      push_cast
      linarith

/-- Encoding behaviour of `SB{w}::to_bits` on any in-range value: the
two's-complement image in `w` bits. -/
theorem sb_encode {w : Nat} {v : Int} (h1 : 1 ≤ w) (h2 : w ≤ 64)
    (hmin : -((2 ^ (w - 1) : Nat) : Int) ≤ v) (hmax : v ≤ ((2 ^ (w - 1) : Nat) : Int) - 1) :
    sb_to_bits w v = (v % ((2 ^ w : Nat) : Int)).toNat := by
  have hws : w ≤ storage_bits w := storage_bits_ge h1 h2
  have hs64 : storage_bits w ≤ 64 := storage_bits_le h1 h2
  have hpow : 2 ^ w = 2 ^ (w - 1) + 2 ^ (w - 1) := by
    conv_lhs => rw [show w = w - 1 + 1 by omega]
    rw [pow_succ]
    omega
  have h2w : (2 ^ w : Nat) ≤ 2 ^ storage_bits w := Nat.pow_le_pow_right (by norm_num) hws
  have hp1 : (1 : Nat) ≤ 2 ^ (w - 1) := Nat.one_le_two_pow
  rw [sb_to_bits, sb_storage_mask_eq]
  rcases le_or_lt 0 v with hv | hv
  · rw [to_unsigned_of_nonneg hv (by omega), Nat.and_pow_two_sub_one_eq_mod]
    have hvlt : v < ((2 ^ w : Nat) : Int) := by omega
    rw [Int.emod_eq_of_lt hv hvlt]
    have hlt2 : v.toNat < 2 ^ w := by omega
    rw [Nat.mod_eq_of_lt hlt2]
  · rw [to_unsigned_of_neg (by omega) hv, Nat.and_pow_two_sub_one_eq_mod]
    have hmod : v % ((2 ^ w : Nat) : Int) = v + ((2 ^ w : Nat) : Int) := by
      have h3 : (v + ((2 ^ w : Nat) : Int)) % ((2 ^ w : Nat) : Int) =
          v % ((2 ^ w : Nat) : Int) := by
        have h4 := Int.add_mul_emod_self_left (a := v) (b := ((2 ^ w : Nat) : Int)) (c := 1)
        rw [mul_one] at h4
        exact h4
      rw [← h3, Int.emod_eq_of_lt (by omega) (by omega)]
    rw [hmod]
    have hsub : (v + ((2 ^ storage_bits w : Nat) : Int)).toNat =
        (v + ((2 ^ w : Nat) : Int)).toNat + (2 ^ storage_bits w - 2 ^ w) := by omega
    have hzero : (2 ^ storage_bits w - 2 ^ w) % 2 ^ w = 0 := by
      have hd : (2 ^ storage_bits w : Nat) - 2 ^ w =
          2 ^ w * (2 ^ (storage_bits w - w) - 1) := by
        rw [Nat.mul_sub_left_distrib, mul_one, ← pow_add, Nat.add_sub_cancel' hws]
      rw [hd, Nat.mul_mod_right]
    have hlt3 : (v + ((2 ^ w : Nat) : Int)).toNat < 2 ^ w := by omega
    rw [hsub, Nat.add_mod, hzero, Nat.add_zero, Nat.mod_mod_of_dvd _ dvd_rfl,
      Nat.mod_eq_of_lt hlt3]

/-- Round trip for `SB{w}`: decoding the encoding of any in-range value gives it
back. -/
theorem sb_round_trip {w : Nat} {v : Int} (h1 : 1 ≤ w) (h2 : w ≤ 64)
    (hmin : sb_min_val w ≤ v) (hmax : v ≤ sb_max_val w) :
    sb_try_from_bits w (sb_to_bits w v) = some v := by
  have hmin' : -((2 ^ (w - 1) : Nat) : Int) ≤ v := by rw [← sb_min_val_eq h1 h2]; exact hmin
  have hmax' : v ≤ ((2 ^ (w - 1) : Nat) : Int) - 1 := by rw [← sb_max_val_eq h1 h2]; exact hmax
  have hpow : 2 ^ w = 2 ^ (w - 1) + 2 ^ (w - 1) := by
    conv_lhs => rw [show w = w - 1 + 1 by omega]
    rw [pow_succ]
    omega
  have hc1 : ((2 ^ w : Nat) : Int) = ((2 ^ (w - 1) : Nat) : Int) +
      ((2 ^ (w - 1) : Nat) : Int) := by exact_mod_cast hpow
  have hc3 : (1 : Int) ≤ ((2 ^ (w - 1) : Nat) : Int) := by
    exact_mod_cast (Nat.one_le_two_pow : (1 : Nat) ≤ 2 ^ (w - 1))
  rw [sb_encode h1 h2 hmin' hmax']
  rcases le_or_lt 0 v with hv | hv
  · have hmod : v % ((2 ^ w : Nat) : Int) = v := Int.emod_eq_of_lt hv (by omega)
    rw [hmod]
    have hlt : v.toNat < 2 ^ w := by omega
    rw [sb_decode h1 h2 hlt, if_neg (by omega)]
    rw [Int.toNat_of_nonneg hv]
  · have hmod : v % ((2 ^ w : Nat) : Int) = v + ((2 ^ w : Nat) : Int) := by
      have h3 : (v + ((2 ^ w : Nat) : Int)) % ((2 ^ w : Nat) : Int) =
          v % ((2 ^ w : Nat) : Int) := by
        have h4 := Int.add_mul_emod_self_left (a := v) (b := ((2 ^ w : Nat) : Int)) (c := 1)
        rw [mul_one] at h4
        exact h4
      rw [← h3, Int.emod_eq_of_lt (by omega) (by omega)]
    rw [hmod]
    have hlt : (v + ((2 ^ w : Nat) : Int)).toNat < 2 ^ w := by omega
    rw [sb_decode h1 h2 hlt, if_pos (by omega)]
    congr 1
    omega

/-- `SB{w}::to_bits` of any in-range value fits in `w` bits. -/
theorem sb_to_bits_lt {w : Nat} {v : Int} (h1 : 1 ≤ w) (h2 : w ≤ 64)
    (hmin : sb_min_val w ≤ v) (hmax : v ≤ sb_max_val w) :
    sb_to_bits w v < 2 ^ w := by
  have hmin' : -((2 ^ (w - 1) : Nat) : Int) ≤ v := by rw [← sb_min_val_eq h1 h2]; exact hmin
  have hmax' : v ≤ ((2 ^ (w - 1) : Nat) : Int) - 1 := by rw [← sb_max_val_eq h1 h2]; exact hmax
  have hc3 : (1 : Int) ≤ ((2 ^ (w - 1) : Nat) : Int) := by
    exact_mod_cast (Nat.one_le_two_pow : (1 : Nat) ≤ 2 ^ (w - 1))
  rw [sb_encode h1 h2 hmin' hmax']
  have hub : v % ((2 ^ w : Nat) : Int) < ((2 ^ w : Nat) : Int) :=
    Int.emod_lt_of_pos v (by positivity)
  omega

/-- Composition of extractions: extracting from an extracted chunk reads the
composed range of the original value. -/
theorem extract_bits_extract_bits {value o1 l1 o2 l2 : Nat} (h1 : 1 ≤ l1)
    (h2 : l1 ≤ 64) (h1' : 1 ≤ l2) (h2' : l2 ≤ 64) (hsub : o2 + l2 ≤ l1) :
    extract_bits (extract_bits value o1 l1) o2 l2 =
      extract_bits value (o1 + o2) l2 := by
  apply Nat.eq_of_testBit_eq
  intro i
  rw [extract_bits_testBit h1' h2', extract_bits_testBit h1' h2',
    extract_bits_testBit h1 h2]
  by_cases hi : i < l2
  · have : o2 + i < l1 := by omega
    simp [hi, this, Nat.add_assoc]
  · simp [hi]

/-! ## Enum lemmas -/

theorem enum_try_from_bits_isSome_iff (values : List Nat) (bits : Nat) :
    (enum_try_from_bits values bits).isSome = true ↔ bits ∈ values := by
  induction values with
  | nil => simp [enum_try_from_bits]
  | cons v rest ih =>
    simp only [enum_try_from_bits, List.mem_cons]
    by_cases h : bits = v
    · simp [h]
    · rw [if_neg h]
      cases hrec : enum_try_from_bits rest bits with
      | none =>
        rw [hrec] at ih
        simp only [Option.isSome_none, Bool.false_eq_true, false_iff] at ih
        simp [h, ih]
      | some j =>
        rw [hrec] at ih
        simp only [Option.isSome_some, true_iff] at ih
        simp [h, ih]

theorem enum_try_from_bits_some {values : List Nat} {bits i : Nat}
    (h : enum_try_from_bits values bits = some i) :
    i < values.length ∧ values.getD i 0 = bits := by
  induction values generalizing i with
  | nil => simp [enum_try_from_bits] at h
  | cons v rest ih =>
    simp only [enum_try_from_bits] at h
    by_cases hbv : bits = v
    · rw [if_pos hbv] at h
      cases h
      simp [hbv]
    · rw [if_neg hbv] at h
      cases hrec : enum_try_from_bits rest bits with
      | none => rw [hrec] at h; simp at h
      | some j =>
        rw [hrec] at h
        simp at h
        obtain ⟨hj1, hj2⟩ := ih hrec
        subst h
        constructor
        · simpa using hj1
        · simpa using hj2

theorem enum_round_trip {values : List Nat} {i : Nat} (hnd : values.Nodup)
    (hi : i < values.length) :
    enum_try_from_bits values (values.getD i 0) = some i := by
  induction values generalizing i with
  | nil => simp at hi
  | cons v rest ih =>
    cases i with
    | zero => simp [enum_try_from_bits]
    | succ j =>
      have hj : j < rest.length := by simpa using hi
      have hmem : rest.getD j 0 ∈ rest := by
        rw [List.getD_eq_getElem?_getD, List.getElem?_eq_getElem hj]
        exact List.getElem_mem hj
      have hne : rest.getD j 0 ≠ v := by
        intro he
        exact (List.nodup_cons.mp hnd).1 (he ▸ hmem)
      simp only [enum_try_from_bits, List.getD_cons_succ]
      rw [if_neg hne, ih (List.nodup_cons.mp hnd).2 hj]
      rfl

/-! ## `bits_required`, `const_array_max_u64` and `enum_bit_len` lemmas -/

theorem bits_required_go_le_iff :
    ∀ fuel v, v ≤ fuel → ∀ k, (bits_required_go fuel v ≤ k ↔ v < 2 ^ k) := by
  intro fuel
  induction fuel with
  | zero =>
    intro v hv k
    have hv0 : v = 0 := by omega
    subst hv0
    simp [bits_required_go, Nat.pos_pow_of_pos]
  | succ fuel ih =>
    intro v hv k
    by_cases hv0 : v = 0
    · subst hv0
      simp [bits_required_go, Nat.pos_pow_of_pos]
    · rw [bits_required_go, if_neg hv0]
      cases k with
      | zero =>
        simp only [Nat.pow_zero]
        omega
      | succ k2 =>
        rw [Nat.succ_le_succ_iff, ih (v / 2) (by omega) k2,
          Nat.div_lt_iff_lt_mul (by norm_num), pow_succ]

theorem bits_required_le_iff (v k : Nat) : bits_required v ≤ k ↔ v < 2 ^ k :=
  bits_required_go_le_iff v v le_rfl k

theorem const_array_max_u64_foldl_spec :
    ∀ (l : List Nat) (a : Nat), ∃ m,
      l.foldl
        (fun maybe_max cur =>
          match maybe_max with
          | some mx => if cur > mx then some cur else some mx
          | none => some cur)
        (some a) = some m ∧ (m = a ∨ m ∈ l) ∧ a ≤ m ∧ ∀ x ∈ l, x ≤ m := by
  intro l
  induction l with
  | nil =>
    intro a
    exact ⟨a, rfl, Or.inl rfl, le_rfl, by simp⟩
  | cons c t ih =>
    intro a
    by_cases hc : c > a
    · obtain ⟨m, hm, hmem, hle, hall⟩ := ih c
      refine ⟨m, ?_, ?_, by omega, ?_⟩
      · simpa [List.foldl_cons, hc] using hm
      · rcases hmem with h | h
        · exact Or.inr (by simp [h])
        · exact Or.inr (by simp [h])
      · intro x hx
        rcases List.mem_cons.mp hx with h | h
        · omega
        · exact hall x h
    · obtain ⟨m, hm, hmem, hle, hall⟩ := ih a
      refine ⟨m, ?_, ?_, hle, ?_⟩
      · simpa [List.foldl_cons, hc] using hm
      · rcases hmem with h | h
        · exact Or.inl h
        · exact Or.inr (by simp [h])
      · intro x hx
        rcases List.mem_cons.mp hx with h | h
        · omega
        · exact hall x h

theorem const_array_max_u64_spec {l : List Nat} {m : Nat}
    (h : const_array_max_u64 l = some m) : m ∈ l ∧ ∀ x ∈ l, x ≤ m := by
  cases l with
  | nil => simp [const_array_max_u64] at h
  | cons c t =>
    rw [const_array_max_u64, List.foldl_cons] at h
    obtain ⟨m2, hm2, hmem, hle, hall⟩ := const_array_max_u64_foldl_spec t c
    rw [hm2] at h
    cases h
    refine ⟨?_, ?_⟩
    · rcases hmem with h | h
      · simp [h]
      · simp [h]
    · intro x hx
      rcases List.mem_cons.mp hx with h | h
      · omega
      · exact hall x h

theorem const_array_max_u64_isSome {l : List Nat} (h : l ≠ []) :
    (const_array_max_u64 l).isSome = true := by
  cases l with
  | nil => exact absurd rfl h
  | cons c t =>
    rw [const_array_max_u64, List.foldl_cons]
    obtain ⟨m, hm, _, _, _⟩ := const_array_max_u64_foldl_spec t c
    rw [hm]
    rfl

/-! ## Structural lemmas about schemas -/

mutual

theorem bit_len_f_pos : ∀ f : FieldTy, field_wf f → 1 ≤ bit_len_f f
  | .boolTy, _ => le_rfl
  | .bTy w, hw => by
      simp only [field_wf] at hw
      simpa [bit_len_f] using hw.1
  | .sbTy w, hw => by
      simp only [field_wf] at hw
      simpa [bit_len_f] using hw.1
  | .uintTy w, hw => by
      simp only [field_wf] at hw
      rcases hw with h | h | h | h <;> simp [bit_len_f, h]
  | .intTy w, hw => by
      simp only [field_wf] at hw
      rcases hw with h | h | h | h <;> simp [bit_len_f, h]
  | .enumTy values bl, hw => by
      simp only [field_wf] at hw
      simpa [bit_len_f] using hw.2.2.1
  | .structTy fs, hw => by
      simp only [field_wf] at hw
      simpa [bit_len_f] using bit_len_fs_pos fs hw.2 hw.1

theorem bit_len_fs_pos : ∀ fs : List FieldTy, fields_wf fs → fs ≠ [] → 1 ≤ bit_len_fs fs
  | [], _, h => absurd rfl h
  | f :: rest, hw, _ => by
      simp only [fields_wf] at hw
      have h1 := bit_len_f_pos f hw.1
      simp only [bit_len_fs]
      omega

end

mutual

theorem flatten_field_shift : ∀ (f : FieldTy) (a b : Nat),
    flatten_field f (a + b) = (flatten_field f b).map (fun p => (a + p.1, p.2))
  | .boolTy, a, b => by simp [flatten_field]
  | .bTy w, a, b => by simp [flatten_field]
  | .sbTy w, a, b => by simp [flatten_field]
  | .uintTy w, a, b => by simp [flatten_field]
  | .intTy w, a, b => by simp [flatten_field]
  | .enumTy values bl, a, b => by simp [flatten_field]
  | .structTy fs, a, b => by
      simp only [flatten_field]
      exact flatten_fields_shift fs a b

theorem flatten_fields_shift : ∀ (fs : List FieldTy) (a b : Nat),
    flatten_fields fs (a + b) = (flatten_fields fs b).map (fun p => (a + p.1, p.2))
  | [], a, b => by simp [flatten_fields]
  | f :: rest, a, b => by
      simp only [flatten_fields, List.map_append]
      rw [flatten_field_shift f a b]
      congr 1
      rw [show a + b + bit_len_f f = a + (b + bit_len_f f) by omega]
      exact flatten_fields_shift rest a (b + bit_len_f f)

end

mutual

theorem flatten_field_bounds : ∀ (f : FieldTy) (off : Nat) (p : Nat × FieldTy),
    p ∈ flatten_field f off → off ≤ p.1 ∧ p.1 + bit_len_f p.2 ≤ off + bit_len_f f
  | .boolTy, off, p => by
      intro hp
      simp only [flatten_field, List.mem_singleton] at hp
      subst hp
      exact ⟨le_rfl, le_rfl⟩
  | .bTy w, off, p => by
      intro hp
      simp only [flatten_field, List.mem_singleton] at hp
      subst hp
      exact ⟨le_rfl, le_rfl⟩
  | .sbTy w, off, p => by
      intro hp
      simp only [flatten_field, List.mem_singleton] at hp
      subst hp
      exact ⟨le_rfl, le_rfl⟩
  | .uintTy w, off, p => by
      intro hp
      simp only [flatten_field, List.mem_singleton] at hp
      subst hp
      exact ⟨le_rfl, le_rfl⟩
  | .intTy w, off, p => by
      intro hp
      simp only [flatten_field, List.mem_singleton] at hp
      subst hp
      exact ⟨le_rfl, le_rfl⟩
  | .enumTy values bl, off, p => by
      intro hp
      simp only [flatten_field, List.mem_singleton] at hp
      subst hp
      exact ⟨le_rfl, le_rfl⟩
  | .structTy fs, off, p => by
      intro hp
      simp only [flatten_field] at hp
      have h := flatten_fields_bounds fs off p hp
      simpa [bit_len_f] using h

theorem flatten_fields_bounds : ∀ (fs : List FieldTy) (off : Nat) (p : Nat × FieldTy),
    p ∈ flatten_fields fs off → off ≤ p.1 ∧ p.1 + bit_len_f p.2 ≤ off + bit_len_fs fs
  | [], off, p => by
      intro hp
      simp [flatten_fields] at hp
  | f :: rest, off, p => by
      intro hp
      simp only [flatten_fields, List.mem_append] at hp
      rcases hp with hp | hp
      · have h := flatten_field_bounds f off p hp
        simp only [bit_len_fs]
        omega
      · have h := flatten_fields_bounds rest (off + bit_len_f f) p hp
        simp only [bit_len_fs]
        omega

end

mutual

theorem flatten_field_len : ∀ (f : FieldTy) (off : Nat) (p : Nat × FieldTy),
    field_wf f → p ∈ flatten_field f off → 1 ≤ bit_len_f p.2 ∧ bit_len_f p.2 ≤ 64
  | .boolTy, off, p => by
      intro hw hp
      simp only [flatten_field, List.mem_singleton] at hp
      subst hp
      simp [bit_len_f]
  | .bTy w, off, p => by
      intro hw hp
      simp only [flatten_field, List.mem_singleton] at hp
      subst hp
      simp only [field_wf] at hw
      simpa [bit_len_f] using hw
  | .sbTy w, off, p => by
      intro hw hp
      simp only [flatten_field, List.mem_singleton] at hp
      subst hp
      simp only [field_wf] at hw
      simpa [bit_len_f] using hw
  | .uintTy w, off, p => by
      intro hw hp
      simp only [flatten_field, List.mem_singleton] at hp
      subst hp
      simp only [field_wf] at hw
      rcases hw with h | h | h | h <;> simp [bit_len_f, h]
  | .intTy w, off, p => by
      intro hw hp
      simp only [flatten_field, List.mem_singleton] at hp
      subst hp
      simp only [field_wf] at hw
      rcases hw with h | h | h | h <;> simp [bit_len_f, h]
  | .enumTy values bl, off, p => by
      intro hw hp
      simp only [flatten_field, List.mem_singleton] at hp
      subst hp
      simp only [field_wf] at hw
      exact ⟨hw.2.2.1, hw.2.2.2.1⟩
  | .structTy fs, off, p => by
      intro hw hp
      simp only [flatten_field] at hp
      simp only [field_wf] at hw
      exact flatten_fields_len fs off p hw.2 hp

theorem flatten_fields_len : ∀ (fs : List FieldTy) (off : Nat) (p : Nat × FieldTy),
    fields_wf fs → p ∈ flatten_fields fs off → 1 ≤ bit_len_f p.2 ∧ bit_len_f p.2 ≤ 64
  | [], off, p => by
      intro _ hp
      simp [flatten_fields] at hp
  | f :: rest, off, p => by
      intro hw hp
      simp only [fields_wf] at hw
      simp only [flatten_fields, List.mem_append] at hp
      rcases hp with hp | hp
      · exact flatten_field_len f off p hw.1 hp
      · exact flatten_fields_len rest (off + bit_len_f f) p hw.2 hp

end

mutual

theorem field_valid_flatten : ∀ (f : FieldTy) (x : Nat), field_wf f → bit_len_f f ≤ 64 →
    x < 2 ^ bit_len_f f →
    (field_valid f x = true ↔
      ∀ p ∈ flatten_field f 0, field_valid p.2 (extract_bits x p.1 (bit_len_f p.2)) = true)
  | .boolTy, x, hw, hlen, hx => by
      have h1 : 1 ≤ bit_len_f FieldTy.boolTy := bit_len_f_pos _ hw
      have hx0 : extract_bits x 0 (bit_len_f FieldTy.boolTy) = x := by
        rw [extract_bits, Nat.shiftRight_zero, extract_bits_mask_eq h1 hlen]
        exact Nat.and_pow_two_sub_one_of_lt_two_pow hx
      simp [flatten_field, hx0]
  | .bTy w, x, hw, hlen, hx => by
      have h1 : 1 ≤ bit_len_f (FieldTy.bTy w) := bit_len_f_pos _ hw
      have hx0 : extract_bits x 0 (bit_len_f (FieldTy.bTy w)) = x := by
        rw [extract_bits, Nat.shiftRight_zero, extract_bits_mask_eq h1 hlen]
        exact Nat.and_pow_two_sub_one_of_lt_two_pow hx
      simp [flatten_field, hx0]
  | .sbTy w, x, hw, hlen, hx => by
      have h1 : 1 ≤ bit_len_f (FieldTy.sbTy w) := bit_len_f_pos _ hw
      have hx0 : extract_bits x 0 (bit_len_f (FieldTy.sbTy w)) = x := by
        rw [extract_bits, Nat.shiftRight_zero, extract_bits_mask_eq h1 hlen]
        exact Nat.and_pow_two_sub_one_of_lt_two_pow hx
      simp [flatten_field, hx0]
  | .uintTy w, x, hw, hlen, hx => by
      have h1 : 1 ≤ bit_len_f (FieldTy.uintTy w) := bit_len_f_pos _ hw
      have hx0 : extract_bits x 0 (bit_len_f (FieldTy.uintTy w)) = x := by
        rw [extract_bits, Nat.shiftRight_zero, extract_bits_mask_eq h1 hlen]
        exact Nat.and_pow_two_sub_one_of_lt_two_pow hx
      simp [flatten_field, hx0]
  | .intTy w, x, hw, hlen, hx => by
      have h1 : 1 ≤ bit_len_f (FieldTy.intTy w) := bit_len_f_pos _ hw
      have hx0 : extract_bits x 0 (bit_len_f (FieldTy.intTy w)) = x := by
        rw [extract_bits, Nat.shiftRight_zero, extract_bits_mask_eq h1 hlen]
        exact Nat.and_pow_two_sub_one_of_lt_two_pow hx
      simp [flatten_field, hx0]
  | .enumTy values bl, x, hw, hlen, hx => by
      have h1 : 1 ≤ bit_len_f (FieldTy.enumTy values bl) := bit_len_f_pos _ hw
      have hx0 : extract_bits x 0 (bit_len_f (FieldTy.enumTy values bl)) = x := by
        rw [extract_bits, Nat.shiftRight_zero, extract_bits_mask_eq h1 hlen]
        exact Nat.and_pow_two_sub_one_of_lt_two_pow hx
      simp [flatten_field, hx0]
  | .structTy fs, x, hw, hlen, hx => by
      simp only [field_valid, flatten_field]
      have hw2 : fields_wf fs := by
        simp only [field_wf] at hw
        exact hw.2
      have h := fields_valid_flatten fs 0 x hw2 (by simpa [bit_len_f] using hlen)
      exact h

theorem fields_valid_flatten : ∀ (fs : List FieldTy) (off x : Nat), fields_wf fs →
    off + bit_len_fs fs ≤ 64 →
    (struct_fields_valid fs off x = true ↔
      ∀ p ∈ flatten_fields fs off, field_valid p.2 (extract_bits x p.1 (bit_len_f p.2)) = true)
  | [], off, x, _, _ => by simp [struct_fields_valid, flatten_fields]
  | f :: rest, off, x, hw, hb => by
      simp only [fields_wf] at hw
      have hb2 : off + bit_len_f f + bit_len_fs rest ≤ 64 := by
        simp only [bit_len_fs] at hb
        omega
      have hlf1 : 1 ≤ bit_len_f f := bit_len_f_pos f hw.1
      have hlf64 : bit_len_f f ≤ 64 := by omega
      have hchunk : extract_bits x off (bit_len_f f) < 2 ^ bit_len_f f :=
        extract_bits_lt hlf1 hlf64
      have hhead := field_valid_flatten f (extract_bits x off (bit_len_f f)) hw.1 hlf64 hchunk
      have htail := fields_valid_flatten rest (off + bit_len_f f) x hw.2 (by omega)
      have hsh : flatten_field f off = (flatten_field f 0).map (fun p => (off + p.1, p.2)) := by
        have h := flatten_field_shift f off 0
        simpa using h
      have hconv : (∀ p ∈ flatten_field f 0,
          field_valid p.2
            (extract_bits (extract_bits x off (bit_len_f f)) p.1 (bit_len_f p.2)) = true) ↔
          (∀ p ∈ flatten_field f off,
            field_valid p.2 (extract_bits x p.1 (bit_len_f p.2)) = true) := by
        constructor
        · intro h p hp
          rw [hsh] at hp
          obtain ⟨q, hq, hpq⟩ := List.mem_map.mp hp
          subst hpq
          have hq1 := flatten_field_bounds f 0 q hq
          have hq2 := flatten_field_len f 0 q hw.1 hq
          have hcomp := @extract_bits_extract_bits x off (bit_len_f f) q.1 (bit_len_f q.2)
            hlf1 hlf64 hq2.1 hq2.2 (by omega)
          show field_valid q.2 (extract_bits x (off + q.1) (bit_len_f q.2)) = true
          rw [← hcomp]
          exact h q hq
        · intro h q hq
          have hq1 := flatten_field_bounds f 0 q hq
          have hq2 := flatten_field_len f 0 q hw.1 hq
          have hcomp := @extract_bits_extract_bits x off (bit_len_f f) q.1 (bit_len_f q.2)
            hlf1 hlf64 hq2.1 hq2.2 (by omega)
          rw [hcomp]
          have hmem : (off + q.1, q.2) ∈ flatten_field f off := by
            rw [hsh]
            exact List.mem_map.mpr ⟨q, hq, rfl⟩
          exact h (off + q.1, q.2) hmem
      simp only [struct_fields_valid, Bool.and_eq_true, flatten_fields, List.forall_mem_append]
      exact and_congr (hhead.trans hconv) htail

end

/-! ## Packing lemmas (`from_fields` = zeroed storage + field setters) -/

theorem struct_pack_from_extract_low : ∀ (fs : List FieldTy) (rs : List Nat) (z off o l : Nat),
    fields_wf fs → raws_fit fs rs → off + bit_len_fs fs ≤ 64 → o + l ≤ off → 1 ≤ l →
    extract_bits (struct_pack_from z off fs rs) o l = extract_bits z o l := by
  intro fs
  induction fs with
  | nil =>
    intro rs z off o l _ hfit hb hol hl
    cases rs <;> simp [struct_pack_from]
  | cons f fs2 ih =>
    intro rs z off o l hw hfit hb hol hl
    cases rs with
    | nil => simp [raws_fit] at hfit
    | cons r rs2 =>
      simp only [raws_fit] at hfit
      simp only [fields_wf] at hw
      have hlf1 : 1 ≤ bit_len_f f := bit_len_f_pos f hw.1
      simp only [bit_len_fs] at hb
      simp only [struct_pack_from, struct_set_field]
      rw [ih rs2 _ (off + bit_len_f f) o l hw.2 hfit.2 (by omega) (by omega) hl]
      exact extract_bits_modify_bits_disjoint hlf1 (by omega) hl (by omega)
        (Or.inr (by omega)) hfit.1

theorem struct_pack_valid : ∀ (fs : List FieldTy) (rs : List Nat) (z off : Nat),
    fields_wf fs → off + bit_len_fs fs ≤ 64 → raws_fit fs rs → raws_valid fs rs →
    struct_fields_valid fs off (struct_pack_from z off fs rs) = true := by
  intro fs
  induction fs with
  | nil =>
    intro rs z off _ _ _ _
    cases rs <;> simp [struct_fields_valid]
  | cons f fs2 ih =>
    intro rs z off hw hb hfit hvalid
    cases rs with
    | nil => simp [raws_fit] at hfit
    | cons r rs2 =>
      simp only [raws_fit] at hfit
      simp only [raws_valid] at hvalid
      simp only [fields_wf] at hw
      simp only [bit_len_fs] at hb
      have hlf1 : 1 ≤ bit_len_f f := bit_len_f_pos f hw.1
      simp only [struct_pack_from, struct_set_field, struct_fields_valid, Bool.and_eq_true]
      constructor
      · rw [struct_pack_from_extract_low fs2 rs2 _ (off + bit_len_f f) off (bit_len_f f)
          hw.2 hfit.2 (by omega) le_rfl hlf1]
        rw [extract_bits_modify_bits hlf1 (by omega)]
        rw [Nat.and_pow_two_sub_one_of_lt_two_pow hfit.1]
        exact hvalid.1
      · exact ih rs2 _ (off + bit_len_f f) hw.2 (by omega) hfit.2 hvalid.2

theorem struct_fields_valid_congr : ∀ (fs : List FieldTy) (off b b2 : Nat),
    (∀ p ∈ field_ranges fs off, extract_bits b p.1 p.2 = extract_bits b2 p.1 p.2) →
    struct_fields_valid fs off b = struct_fields_valid fs off b2 := by
  intro fs
  induction fs with
  | nil =>
    intro off b b2 _
    simp [struct_fields_valid]
  | cons f fs2 ih =>
    intro off b b2 hag
    have hhead : extract_bits b off (bit_len_f f) = extract_bits b2 off (bit_len_f f) :=
      hag (off, bit_len_f f) (by simp [field_ranges])
    have htail := ih (off + bit_len_f f) b b2 (fun p hp => hag p (by simp [field_ranges, hp]))
    simp only [struct_fields_valid, hhead, htail]

/-! ## Field offset lemmas -/

theorem field_offsets_from_getD_zero : ∀ (fs : List FieldTy) (start : Nat), fs ≠ [] →
    (field_offsets_from start fs).getD 0 0 = start := by
  intro fs start hne
  cases fs with
  | nil => exact absurd rfl hne
  | cons f rest => simp [field_offsets_from]

theorem field_offsets_from_getD_succ : ∀ (fs : List FieldTy) (start i : Nat),
    i + 1 < fs.length →
    (field_offsets_from start fs).getD (i + 1) 0 =
      (field_offsets_from start fs).getD i 0 + bit_len_f (fs.getD i FieldTy.boolTy) := by
  intro fs
  induction fs with
  | nil =>
    intro start i hi
    simp at hi
  | cons f rest ih =>
    intro start i hi
    cases i with
    | zero =>
      have hrest : rest ≠ [] := by
        intro h
        subst h
        simp at hi
      simp only [field_offsets_from, List.getD_cons_succ, List.getD_cons_zero]
      rw [field_offsets_from_getD_zero rest (start + bit_len_f f) hrest]
    | succ j =>
      simp only [field_offsets_from, List.getD_cons_succ]
      exact ih (start + bit_len_f f) j (by simpa using hi)

theorem bit_len_fs_eq_sum : ∀ fs : List FieldTy, bit_len_fs fs = (fs.map bit_len_f).sum := by
  intro fs
  induction fs with
  | nil => simp [bit_len_fs]
  | cons f rest ih => simp [bit_len_fs, ih]

theorem field_offsets_from_last : ∀ (fs : List FieldTy) (start : Nat), fs ≠ [] →
    start + bit_len_fs fs =
      (field_offsets_from start fs).getD (fs.length - 1) 0 +
        bit_len_f (fs.getD (fs.length - 1) FieldTy.boolTy) := by
  intro fs
  induction fs with
  | nil =>
    intro start hne
    exact absurd rfl hne
  | cons f rest ih =>
    intro start _
    cases hrest : rest with
    | nil =>
      subst hrest
      simp [field_offsets_from, bit_len_fs]
    | cons g rest2 =>
      have hne2 : rest ≠ [] := by simp [hrest]
      rw [← hrest]
      have hlen : (f :: rest).length - 1 = (rest.length - 1) + 1 := by
        rw [hrest]
        simp
      rw [hlen]
      simp only [field_offsets_from, List.getD_cons_succ, bit_len_fs]
      rw [show start + (bit_len_f f + bit_len_fs rest) =
        (start + bit_len_f f) + bit_len_fs rest by omega]
      exact ih (start + bit_len_f f) hne2

/-! ## Claim theorems -/

/-- Claim C8 (confirmed): for all `value`, `o`, `l`, `x` with `o + l ≤ 64` and
`l ≥ 1`, `extract_bits (modify_bits value o l x) o l = x &&& mask l`, where
`mask l = extract_bits_mask l` is the `l`-bit all-ones mask (`2 ^ l - 1`) and
`mask 64` is all ones. -/
theorem claim_C8 : ∀ value o l x : Nat, 1 ≤ l → o + l ≤ 64 →
    extract_bits (modify_bits value o l x) o l = x &&& extract_bits_mask l ∧
      extract_bits_mask l = 2 ^ l - 1 ∧ extract_bits_mask 64 = 2 ^ 64 - 1 := by
  intro value o l x hl hol
  refine ⟨?_, extract_bits_mask_eq hl (by omega), extract_bits_mask_eq (by norm_num) le_rfl⟩
  rw [extract_bits_modify_bits hl hol, extract_bits_mask_eq hl (by omega)]

/-- Witness for C8 at `value = 0xABCD`, `o = 3`, `l = 5`, `x = 0xF7`. -/
theorem claim_C8_witness :
    (1 ≤ 5 ∧ 3 + 5 ≤ 64) ∧
      (extract_bits (modify_bits 0xABCD 3 5 0xF7) 3 5 = 0xF7 &&& extract_bits_mask 5 ∧
        extract_bits_mask 5 = 2 ^ 5 - 1 ∧ extract_bits_mask 64 = 2 ^ 64 - 1) :=
  ⟨⟨by decide, by decide⟩, claim_C8 0xABCD 3 5 0xF7 (by decide) (by decide)⟩

/-- Claim C2 is false as stated: `modify_bits` does not mask `new_raw` to `len`
bits before shifting, so at `value = 0`, `offset = 0`, `len = 1`,
`new_raw = 2` the result is `2`, while the claimed masked formula gives `0`. -/
theorem claim_C2_counterexample :
    modify_bits 0 0 1 2 ≠
      (0 &&& (U64_MAX ^^^ (extract_bits_mask 1 <<< 0))) |||
        ((2 &&& extract_bits_mask 1) <<< 0) := by decide

/-- Claim C2 (amended): the claimed identity
`modify_bits value offset len new_raw =
  (value &&& ¬(mask len <<< offset)) ||| ((new_raw &&& mask len) <<< offset)`
holds under the additional hypothesis `new_raw < 2 ^ len`; the source does not
mask `new_raw`, so patterns of `new_raw` above `len` bits can affect the
result. -/
theorem claim_C2 : ∀ value offset len new_raw : Nat, 1 ≤ len → offset + len ≤ 64 →
    new_raw < 2 ^ len →
    modify_bits value offset len new_raw =
      (value &&& (U64_MAX ^^^ (extract_bits_mask len <<< offset))) |||
        ((new_raw &&& extract_bits_mask len) <<< offset) := by
  intro value offset len new_raw hl hol hfit
  have hm : extract_bits_shifted_mask offset len = extract_bits_mask len <<< offset := by
    rw [extract_bits_shifted_mask_eq hl hol, extract_bits_mask_eq hl (by omega)]
  have hmask : new_raw &&& extract_bits_mask len = new_raw := by
    rw [extract_bits_mask_eq hl (by omega)]
    exact Nat.and_pow_two_sub_one_of_lt_two_pow hfit
  have hshift : (new_raw <<< offset) % U64_LIMIT = new_raw <<< offset := by
    apply Nat.mod_eq_of_lt
    calc new_raw <<< offset < 2 ^ (len + offset) := Nat.shiftLeft_lt hfit
      _ ≤ 2 ^ 64 := Nat.pow_le_pow_right (by norm_num) (by omega)
  show (value &&& (U64_MAX ^^^ extract_bits_shifted_mask offset len)) |||
      ((new_raw <<< offset) % U64_LIMIT) = _
  rw [hm, hshift, hmask]

/-- Witness for the amended C2 at `value = 0xFF`, `offset = 2`, `len = 3`,
`new_raw = 0b101`. -/
theorem claim_C2_witness :
    (1 ≤ 3 ∧ 2 + 3 ≤ 64 ∧ 0b101 < 2 ^ 3) ∧
      modify_bits 0xFF 2 3 0b101 =
        (0xFF &&& (U64_MAX ^^^ (extract_bits_mask 3 <<< 2))) |||
          ((0b101 &&& extract_bits_mask 3) <<< 2) :=
  ⟨⟨by decide, by decide, by decide⟩, claim_C2 0xFF 2 3 0b101 (by decide) (by decide) (by decide)⟩

/-- Claim C3 is false as stated: a nested 1-bit piece over the schema `[bool]`
accepts the raw pattern `2` (`try_from_bits` validates only the bool field at
bit 0 and stores the input verbatim), its `to_bits` is `2`, and setting it
through a window of its 1-bit field at offset 0 changes bit 1 of the root
storage, which lies outside `[0, 1)`. -/
theorem claim_C3_counterexample :
    struct_try_from_bits [FieldTy.boolTy] 2 = some 2 ∧
      bit_len_f (FieldTy.structTy [FieldTy.boolTy]) = 1 ∧
      struct_to_bits 2 = 2 ∧
      window_set 0 0 1 (struct_to_bits 2) = 2 ∧
      (window_set 0 0 1 (struct_to_bits 2)).testBit 1 ≠ (0 : Nat).testBit 1 := by
  refine ⟨by decide, by decide, rfl, by decide, by decide⟩

/-- Claim C3 (amended): setting a field of `len` bits at cumulative offset
`offset` through a window leaves every root-storage bit outside
`[offset, offset + len)` unchanged provided the written raw value
`to_bits(value)` fits in `len` bits; this fit holds for every value of the
`bool`, `B`, `SB` and (well-formed) enum field types, but not necessarily for
nested struct pieces, whose storage may carry stray bits above their bit
length. -/
theorem claim_C3 :
    (∀ storage offset len new_raw i : Nat, 1 ≤ len → offset + len ≤ 64 →
      new_raw < 2 ^ len → i < 64 → (i < offset ∨ offset + len ≤ i) →
      (window_set storage offset len new_raw).testBit i = storage.testBit i) ∧
    (∀ b : Bool, bool_to_bits b < 2 ^ 1) ∧
    (∀ w v : Nat, v ≤ b_ones w → b_to_bits v < 2 ^ w) ∧
    (∀ (w : Nat) (v : Int), 1 ≤ w → w ≤ 64 → sb_min_val w ≤ v → v ≤ sb_max_val w →
      sb_to_bits w v < 2 ^ w) ∧
    (∀ (values : List Nat) (bl i : Nat), field_wf (FieldTy.enumTy values bl) →
      i < values.length → enum_to_bits values i < 2 ^ bl) := by
  refine ⟨?_, by decide, ?_, ?_, ?_⟩
  · intro storage offset len new_raw i hl hol hfit hi64 hout
    simp only [window_set, bits_mut_set_bits, Nat.add_zero]
    rcases hout with h | h
    · exact modify_bits_testBit_below hl hol h
    · exact modify_bits_testBit_above hl hol h hi64 hfit
  · intro w v hv
    rw [b_ones_eq] at hv
    have h1 : (1 : Nat) ≤ 2 ^ w := Nat.one_le_two_pow
    show v < 2 ^ w
    omega
  · intro w v h1 h2 hmin hmax
    exact sb_to_bits_lt h1 h2 hmin hmax
  · intro values bl i hw hi
    simp only [field_wf] at hw
    have hmem : values.getD i 0 ∈ values := by
      rw [List.getD_eq_getElem?_getD, List.getElem?_eq_getElem hi]
      exact List.getElem_mem hi
    exact hw.2.2.2.2 _ hmem

/-- Witness for the amended C3: setting raw `0b101` into a 3-bit window at
offset 2 of storage `0xFF` leaves bit 1 and bit 5 unchanged. -/
theorem claim_C3_witness :
    (1 ≤ 3 ∧ 2 + 3 ≤ 64 ∧ (0b101 : Nat) < 2 ^ 3 ∧ 1 < 64 ∧ (1 < 2 ∨ 2 + 3 ≤ 1)) ∧
      (window_set 0xFF 2 3 0b101).testBit 1 = (0xFF : Nat).testBit 1 ∧
      (window_set 0xFF 2 3 0b101).testBit 5 = (0xFF : Nat).testBit 5 :=
  ⟨⟨by decide, by decide, by decide, by decide, Or.inl (by decide)⟩,
    claim_C3.1 0xFF 2 3 0b101 1 (by decide) (by decide) (by decide) (by decide)
      (Or.inl (by decide)),
    claim_C3.1 0xFF 2 3 0b101 5 (by decide) (by decide) (by decide) (by decide)
      (Or.inr (by decide))⟩

/-- Claim C4 (confirmed): for every `SB` type of width `w` strictly below its
storage width and every raw `r < 2 ^ w`, `try_from_bits` sign-extends: if bit
`w - 1` of `r` is set the decoded value is `r - 2 ^ w`, otherwise it is `r`. -/
theorem claim_C4 : ∀ w r : Nat, 1 ≤ w → w ≤ 64 → w < storage_bits w → r < 2 ^ w →
    sb_try_from_bits w r =
      some (if r.testBit (w - 1) then (r : Int) - ((2 ^ w : Nat) : Int) else (r : Int)) := by
  intro w r h1 h2 _ hr
  rw [sb_decode h1 h2 hr]
  have hpow : 2 ^ w = 2 ^ (w - 1) + 2 ^ (w - 1) := by
    conv_lhs => rw [show w = w - 1 + 1 by omega]
    rw [pow_succ]
    omega
  have htb : r.testBit (w - 1) = decide (2 ^ (w - 1) ≤ r) := by
    rcases Nat.lt_or_ge r (2 ^ (w - 1)) with h | h
    · rw [Nat.testBit_lt_two_pow h]
      exact (decide_eq_false (by omega)).symm
    · have hdiv : r / 2 ^ (w - 1) = 1 := by
        apply Nat.div_eq_of_lt_le
        · simpa using h
        · omega
      rw [Nat.testBit_to_div_mod, hdiv]
      simp [h]
  rw [htb]
  by_cases h : 2 ^ (w - 1) ≤ r <;> simp [h]

/-- Witness for C4 at width 5: raw `0b10000` decodes to `-16` and raw `0b01111`
decodes to `15`. -/
theorem claim_C4_witness :
    (1 ≤ 5 ∧ 5 ≤ 64 ∧ 5 < storage_bits 5 ∧ 16 < 2 ^ 5) ∧
      sb_try_from_bits 5 16 =
        some (if (16 : Nat).testBit 4 then (16 : Int) - ((2 ^ 5 : Nat) : Int) else (16 : Int)) ∧
      sb_try_from_bits 5 16 = some (-16) ∧ sb_try_from_bits 5 15 = some 15 :=
  ⟨⟨by decide, by decide, by decide, by decide⟩,
    claim_C4 5 16 (by decide) (by decide) (by decide) (by decide), by decide, by decide⟩

/-- Claim C5 (confirmed): a generated enum's `try_from_bits` returns a variant
exactly when the raw value equals some variant's declared discriminant — the
returned variant's declared value is the raw input — and returns `None`
otherwise. -/
theorem claim_C5 : ∀ (values : List Nat) (bits : Nat),
    ((enum_try_from_bits values bits).isSome = true ↔ bits ∈ values) ∧
    (∀ i, enum_try_from_bits values bits = some i →
      i < values.length ∧ values.getD i 0 = bits) ∧
    (bits ∉ values → enum_try_from_bits values bits = none) := by
  intro values bits
  refine ⟨enum_try_from_bits_isSome_iff values bits, fun i h => enum_try_from_bits_some h, ?_⟩
  intro hnot
  cases h : enum_try_from_bits values bits with
  | none => rfl
  | some i =>
    exact absurd ((enum_try_from_bits_isSome_iff values bits).mp (by simp [h])) hnot

/-- Witness for C5 on the sparse value set `{0, 77, 120}` at raw inputs 55
and 77. -/
theorem claim_C5_witness :
    enum_try_from_bits [0, 77, 120] 55 = none ∧
      enum_try_from_bits [0, 77, 120] 77 = some 1 ∧
      (1 < ([0, 77, 120] : List Nat).length ∧ ([0, 77, 120] : List Nat).getD 1 0 = 77) :=
  ⟨(claim_C5 [0, 77, 120] 55).2.2 (by decide), by decide,
    (claim_C5 [0, 77, 120] 77).2.1 1 (by decide)⟩

/-- Claim C9 is false as stated: the derived enum bit length has no minimum of
one bit — an enum whose only declared discriminant is `0` derives bit length
`0` (its per-variant bit count is `64 - leading_zeros(0) = 0`), not `1`. -/
theorem claim_C9_counterexample :
    enum_bit_len [0] = some 0 ∧ enum_bit_len [0] ≠ some 1 := by decide

/-- Claim C9 (amended): for an enum without an explicit bit length the derived
bit length is exactly the number of bits needed for the largest declared
discriminant — the smallest `k` with every discriminant below `2 ^ k`, i.e.
`ceil(log2(max + 1))` — with no minimum-1 clamp, so an enum whose largest
discriminant is `0` derives bit length `0`. -/
theorem claim_C9 : ∀ (values : List Nat) (bl : Nat),
    (values ≠ [] → (enum_bit_len values).isSome = true) ∧
    (enum_bit_len values = some bl →
      (∀ v ∈ values, v < 2 ^ bl) ∧ ∀ k : Nat, (∀ v ∈ values, v < 2 ^ k) → bl ≤ k) := by
  intro values bl
  constructor
  · intro hne
    rw [enum_bit_len]
    apply const_array_max_u64_isSome
    simpa using hne
  · intro h
    rw [enum_bit_len] at h
    obtain ⟨hmem, hall⟩ := const_array_max_u64_spec h
    constructor
    · intro v hv
      exact (bits_required_le_iff v bl).mp (hall _ (List.mem_map_of_mem _ hv))
    · intro k hk
      obtain ⟨v0, hv0, hbv⟩ := List.mem_map.mp hmem
      have h2 := (bits_required_le_iff v0 k).mpr (hk v0 hv0)
      omega

/-- Witness for the amended C9 on the value set `{0, 77, 120}`, whose derived
bit length is 7. -/
theorem claim_C9_witness :
    enum_bit_len [0, 77, 120] = some 7 ∧
      (∀ v ∈ ([0, 77, 120] : List Nat), v < 2 ^ 7) ∧
      ∀ k : Nat, (∀ v ∈ ([0, 77, 120] : List Nat), v < 2 ^ k) → 7 ≤ k :=
  ⟨by decide, (claim_C9 [0, 77, 120] 7).2 (by decide)⟩

/-- Claim C10 (confirmed): a generated struct's `try_from_bits` stores the
accepted input verbatim — `to_bits (from_bits bits) = bits` exactly, including
any bits above the struct's total bit length — and its validation reads only
the declared per-field bit ranges: two inputs that agree on every field range
are both accepted or both rejected. -/
theorem claim_C10 : ∀ (fs : List FieldTy) (bits : Nat),
    (∀ p : Nat, struct_try_from_bits fs bits = some p → struct_to_bits p = bits) ∧
    (∀ b2 : Nat,
      (∀ q ∈ field_ranges fs 0, extract_bits bits q.1 q.2 = extract_bits b2 q.1 q.2) →
      (struct_try_from_bits fs bits).isSome = (struct_try_from_bits fs b2).isSome) := by
  intro fs bits
  constructor
  · intro p h
    rw [struct_try_from_bits] at h
    by_cases hv : struct_fields_valid fs 0 bits = true
    · rw [if_pos hv] at h
      cases h
      rfl
    · rw [if_neg hv] at h
      exact Option.noConfusion h
  · intro b2 hag
    have hc := struct_fields_valid_congr fs 0 bits b2 hag
    rw [struct_try_from_bits, struct_try_from_bits, hc]
    by_cases h : struct_fields_valid fs 0 b2 = true <;> simp [h]

/-- Witness for C10: the 1-bit schema `[bool]` (stored in 8 bits) accepts raw
`2`, whose set bit lies above the single declared field, verbatim; and `2`
and `0` agree on the only field range, so both are accepted. -/
theorem claim_C10_witness :
    struct_try_from_bits [FieldTy.boolTy] 2 = some 2 ∧
      struct_to_bits 2 = 2 ∧
      (struct_try_from_bits [FieldTy.boolTy] 2).isSome =
        (struct_try_from_bits [FieldTy.boolTy] 0).isSome :=
  ⟨by decide, (claim_C10 [FieldTy.boolTy] 2).1 2 (by decide),
    (claim_C10 [FieldTy.boolTy] 2).2 0 (by decide)⟩

/-- Claim C7 (confirmed): for every generated struct, the first field's offset
is 0, each subsequent offset is the previous offset plus the previous length
(contiguous, least-significant-field-first, no padding), the total bit count
is the sum of the field lengths (equivalently, last offset plus last length),
and for every total bit count in `1..=64` the storage width is the smallest
element of `{8, 16, 32, 64}` that is at least the total bit count. -/
theorem claim_C7 :
    (∀ fs : List FieldTy, fs ≠ [] → (field_offsets fs).getD 0 0 = 0) ∧
    (∀ (fs : List FieldTy) (i : Nat), i + 1 < fs.length →
      (field_offsets fs).getD (i + 1) 0 =
        (field_offsets fs).getD i 0 + bit_len_f (fs.getD i FieldTy.boolTy)) ∧
    (∀ fs : List FieldTy, bit_len_fs fs = (fs.map bit_len_f).sum) ∧
    (∀ fs : List FieldTy, fs ≠ [] →
      bit_len_fs fs = (field_offsets fs).getD (fs.length - 1) 0 +
        bit_len_f (fs.getD (fs.length - 1) FieldTy.boolTy)) ∧
    (∀ n : Nat, 1 ≤ n → n ≤ 64 →
      storage_bits n ∈ ([8, 16, 32, 64] : List Nat) ∧
      n ≤ storage_bits n ∧
      ∀ u ∈ ([8, 16, 32, 64] : List Nat), n ≤ u → storage_bits n ≤ u) := by
  refine ⟨?_, ?_, bit_len_fs_eq_sum, ?_, ?_⟩
  · intro fs hne
    exact field_offsets_from_getD_zero fs 0 hne
  · intro fs i hi
    exact field_offsets_from_getD_succ fs 0 i hi
  · intro fs hne
    have h := field_offsets_from_last fs 0 hne
    simpa [field_offsets] using h
  · have hdec : ∀ n < 65, 1 ≤ n →
        storage_bits n ∈ ([8, 16, 32, 64] : List Nat) ∧ n ≤ storage_bits n ∧
        ∀ u ∈ ([8, 16, 32, 64] : List Nat), n ≤ u → storage_bits n ≤ u := by
      decide
    intro n h1 h2
    exact hdec n (by omega) h1

/-- Witness for C7 on the spec's example schema `[a : 3 bits, b : 5 bits]`:
offsets 0 and 3, total 8 bits, storage width 8; extracting `b` from the raw
byte `0b11111010` yields 31 and extracting `a` yields 2. -/
theorem claim_C7_witness :
    (field_offsets [FieldTy.bTy 3, FieldTy.bTy 5]).getD 0 0 = 0 ∧
      (field_offsets [FieldTy.bTy 3, FieldTy.bTy 5]).getD 1 0 =
        (field_offsets [FieldTy.bTy 3, FieldTy.bTy 5]).getD 0 0 +
          bit_len_f (([FieldTy.bTy 3, FieldTy.bTy 5] : List FieldTy).getD 0 FieldTy.boolTy) ∧
      bit_len_fs [FieldTy.bTy 3, FieldTy.bTy 5] = 8 ∧
      storage_bits 8 = 8 ∧ 8 ≤ storage_bits 8 ∧
      extract_bits 0b11111010 3 5 = 31 ∧ extract_bits 0b11111010 0 3 = 2 :=
  ⟨claim_C7.1 [FieldTy.bTy 3, FieldTy.bTy 5] (by simp),
    claim_C7.2.1 [FieldTy.bTy 3, FieldTy.bTy 5] 0 (by decide),
    by decide, by decide,
    (claim_C7.2.2.2.2 8 (by decide) (by decide)).2.1,
    by decide, by decide⟩

/-- Claim C6 (confirmed): for every generated struct and raw pattern,
`try_from_bits` returns `None` exactly when the extracted bits of some
(recursively flattened, arbitrarily deeply nested) leaf field are invalid for
that field's type; it is total (never panics); and `from_bits`, which is
`try_from_bits().unwrap()`, panics (modelled as `none`) exactly when
`try_from_bits` returns `None`. -/
theorem claim_C6 : ∀ (fs : List FieldTy) (bits : Nat), fields_wf fs →
    bit_len_fs fs ≤ 64 →
    (struct_try_from_bits fs bits = none ↔
      ∃ p ∈ flatten_fields fs 0,
        field_valid p.2 (extract_bits bits p.1 (bit_len_f p.2)) = false) ∧
    ((struct_try_from_bits fs bits).isSome = true ↔
      ∀ p ∈ flatten_fields fs 0,
        field_valid p.2 (extract_bits bits p.1 (bit_len_f p.2)) = true) ∧
    (struct_from_bits fs bits = none ↔ struct_try_from_bits fs bits = none) := by
  intro fs bits hw hb
  have hmain := fields_valid_flatten fs 0 bits hw (by omega)
  have hsome : (struct_try_from_bits fs bits).isSome = true ↔
      struct_fields_valid fs 0 bits = true := by
    rw [struct_try_from_bits]
    by_cases h : struct_fields_valid fs 0 bits = true <;> simp [h]
  have hnone : struct_try_from_bits fs bits = none ↔
      ¬ struct_fields_valid fs 0 bits = true := by
    rw [struct_try_from_bits]
    by_cases h : struct_fields_valid fs 0 bits = true <;> simp [h]
  refine ⟨?_, hsome.trans hmain, Iff.rfl⟩
  rw [hnone, hmain]
  constructor
  · intro h
    by_contra hno
    push_neg at hno
    apply h
    intro p hp
    have h2 := hno p hp
    cases hfv : field_valid p.2 (extract_bits bits p.1 (bit_len_f p.2)) with
    | false => exact absurd hfv h2
    | true => rfl
  · rintro ⟨p, hp, hfalse⟩ hall
    have h3 := hall p hp
    rw [hfalse] at h3
    exact Bool.noConfusion h3

/-- Witness for C6: a sparse 8-bit enum (values `{0, 100}`) nested one struct
level deep is rejected at the outer level when its bits hold the undeclared
value 101, and accepted when they hold 100. -/
theorem claim_C6_witness :
    fields_wf [FieldTy.structTy [FieldTy.enumTy [0, 100] 8], FieldTy.boolTy] ∧
      struct_try_from_bits [FieldTy.structTy [FieldTy.enumTy [0, 100] 8], FieldTy.boolTy]
        0b101100101 = none ∧
      (∃ p ∈ flatten_fields [FieldTy.structTy [FieldTy.enumTy [0, 100] 8], FieldTy.boolTy] 0,
        field_valid p.2 (extract_bits 0b101100101 p.1 (bit_len_f p.2)) = false) ∧
      struct_try_from_bits [FieldTy.structTy [FieldTy.enumTy [0, 100] 8], FieldTy.boolTy]
        0b101100100 = some 0b101100100 := by
  have hwf : fields_wf [FieldTy.structTy [FieldTy.enumTy [0, 100] 8], FieldTy.boolTy] := by
    simp only [fields_wf, field_wf]
    refine ⟨⟨by simp, by decide, trivial⟩, trivial, trivial⟩
  refine ⟨hwf, by decide, ?_, by decide⟩
  exact (claim_C6 [FieldTy.structTy [FieldTy.enumTy [0, 100] 8], FieldTy.boolTy]
    0b101100101 hwf (by decide)).1.mp (by decide)

/-- Claim C1 (confirmed): round trips.  For every representable value of each
field kind — `bool`, `B{w}` (values up to `ONES`), `SB{w}` (values between
`MIN` and `MAX`), native integers, enum variants of a well-formed enum — the
`to_bits` image decodes back to the same value under both `from_bits` and
`try_from_bits`; and every whole piece built from declared field values (the
zeroed storage with every field set to a fitting, valid raw value in
declaration order, as `from_fields` does) is accepted unchanged by
`from_bits`/`try_from_bits` applied to its `to_bits` image. -/
theorem claim_C1 :
    (∀ b : Bool, bool_from_bits (bool_to_bits b) = b ∧
      bool_try_from_bits (bool_to_bits b) = some b) ∧
    (∀ w v : Nat, v ≤ b_ones w →
      b_from_bits w (b_to_bits v) = some v ∧ b_try_from_bits w (b_to_bits v) = some v) ∧
    (∀ (w : Nat) (v : Int), 1 ≤ w → w ≤ 64 → sb_min_val w ≤ v → v ≤ sb_max_val w →
      sb_from_bits w (sb_to_bits w v) = some v ∧
        sb_try_from_bits w (sb_to_bits w v) = some v) ∧
    (∀ bits : Nat, uint_try_from_bits (uint_to_bits bits) = some bits) ∧
    (∀ (w : Nat) (v : Int), (w = 8 ∨ w = 16 ∨ w = 32 ∨ w = 64) →
      -(((2 ^ (w - 1) : Nat) : Int)) ≤ v → v < ((2 ^ (w - 1) : Nat) : Int) →
      int_from_bits w (int_to_bits w v) = v ∧
        int_try_from_bits w (int_to_bits w v) = some v) ∧
    (∀ (values : List Nat) (bl i : Nat), field_wf (FieldTy.enumTy values bl) →
      i < values.length →
      enum_from_bits values (enum_to_bits values i) = some i ∧
        enum_try_from_bits values (enum_to_bits values i) = some i) ∧
    (∀ (fs : List FieldTy) (rs : List Nat) (z : Nat), fields_wf fs →
      bit_len_fs fs ≤ 64 → raws_fit fs rs → raws_valid fs rs →
      struct_from_bits fs (struct_to_bits (struct_pack_from z 0 fs rs)) =
        some (struct_pack_from z 0 fs rs) ∧
      struct_try_from_bits fs (struct_to_bits (struct_pack_from z 0 fs rs)) =
        some (struct_pack_from z 0 fs rs)) := by
  refine ⟨?_, ?_, ?_, ?_, ?_, ?_, ?_⟩
  · intro b
    cases b <;> exact ⟨rfl, rfl⟩
  · intro w v hv
    have h : b_try_new w v = some v := by rw [b_try_new, if_pos hv]
    exact ⟨h, h⟩
  · intro w v h1 h2 hmin hmax
    have h := sb_round_trip h1 h2 hmin hmax
    exact ⟨h, h⟩
  · intro bits
    rfl
  · intro w v hw hmin hmax
    have h1 : 1 ≤ w := by rcases hw with h | h | h | h <;> omega
    have hpow : 2 ^ w = 2 ^ (w - 1) + 2 ^ (w - 1) := by
      conv_lhs => rw [show w = w - 1 + 1 by omega]
      rw [pow_succ]
      omega
    have hbr : ((2 ^ w : Nat) : Int) = (2 : Int) ^ w := by push_cast; ring
    have hfb : int_from_bits w (int_to_bits w v) = v := by
      rcases le_or_lt 0 v with hv | hv
      · rw [int_to_bits, to_unsigned_of_nonneg hv (by omega), int_from_bits,
          to_signed_of_lt (by omega)]
        exact Int.toNat_of_nonneg hv
      · rw [int_to_bits, to_unsigned_of_neg (by omega) hv, int_from_bits,
          to_signed_of_ge (by omega) (by omega)]
        have ht : (((v + ((2 ^ w : Nat) : Int)).toNat : Nat) : Int) =
            v + ((2 ^ w : Nat) : Int) := Int.toNat_of_nonneg (by omega)
        omega
    refine ⟨hfb, ?_⟩
    rw [int_try_from_bits, show to_signed w (int_to_bits w v) = v from hfb]
  · intro values bl i hw hi
    simp only [field_wf] at hw
    have h := enum_round_trip hw.2.1 hi
    exact ⟨h, h⟩
  · intro fs rs z hwf hb hfit hvalid
    have hv := struct_pack_valid fs rs z 0 hwf (by omega) hfit hvalid
    have h : struct_try_from_bits fs (struct_pack_from z 0 fs rs) =
        some (struct_pack_from z 0 fs rs) := by
      rw [struct_try_from_bits, if_pos hv]
    exact ⟨h, h⟩

/-- Witness for C1: concrete round trips for each field kind, and for the
8-bit example piece `{bool, 2-bit enum, B5}` built from the field values
`true`, variant 2, `B5 19`. -/
theorem claim_C1_witness :
    bool_try_from_bits (bool_to_bits true) = some true ∧
      b_try_from_bits 5 (b_to_bits 19) = some 19 ∧
      sb_try_from_bits 5 (sb_to_bits 5 (-3)) = some (-3) ∧
      int_from_bits 8 (int_to_bits 8 (-100)) = -100 ∧
      enum_try_from_bits [0, 77, 120] (enum_to_bits [0, 77, 120] 1) = some 1 ∧
      struct_try_from_bits [FieldTy.boolTy, FieldTy.enumTy [0, 1, 2, 3] 2, FieldTy.bTy 5]
          (struct_to_bits (struct_pack_from 0 0
            [FieldTy.boolTy, FieldTy.enumTy [0, 1, 2, 3] 2, FieldTy.bTy 5] [1, 2, 19])) =
        some (struct_pack_from 0 0
          [FieldTy.boolTy, FieldTy.enumTy [0, 1, 2, 3] 2, FieldTy.bTy 5] [1, 2, 19]) := by
  have hwf : fields_wf [FieldTy.boolTy, FieldTy.enumTy [0, 1, 2, 3] 2, FieldTy.bTy 5] := by
    simp only [fields_wf, field_wf]
    refine ⟨trivial, ⟨by simp, by decide, by decide, by decide, by decide⟩,
      ⟨by decide, by decide⟩, trivial⟩
  have hewf : field_wf (FieldTy.enumTy [0, 77, 120] 7) := by
    simp only [field_wf]
    exact ⟨by simp, by decide, by decide, by decide, by decide⟩
  refine ⟨(claim_C1.1 true).2, (claim_C1.2.1 5 19 (by decide)).2,
    (claim_C1.2.2.1 5 (-3) (by decide) (by decide) (by decide) (by decide)).2,
    (claim_C1.2.2.2.2.1 8 (-100) (by decide) (by decide) (by decide)).1,
    (claim_C1.2.2.2.2.2.1 [0, 77, 120] 7 1 hewf (by decide)).2,
    (claim_C1.2.2.2.2.2.2 [FieldTy.boolTy, FieldTy.enumTy [0, 1, 2, 3] 2, FieldTy.bTy 5]
      [1, 2, 19] 0 hwf (by decide) ?_ ?_).2⟩
  · simp only [raws_fit, bit_len_f]
    refine ⟨by decide, by decide, by decide, trivial⟩
  · simp only [raws_valid]
    refine ⟨by decide, by decide, by decide, trivial⟩

end Bitpiece
